import Mathlib

/-!
Verification development for the projector repository
(feature scheduler and lifecycle state machine).

The definitions below are a shallow embedding of the Python sources:

* src/backend/planning_manager.py : PlanningManager (plan creation from
  plan text, feature lifecycle operations, progress report);
* src/backend/project_manager.py  : ProjectManager.start_implementation
  (the admission pass) and ProjectManager.handle_pr_merged;
* src/backend/utils.py            : estimate_project_completion;
* src/backend/thread_pool.py      : ThreadPool.wait_completion.

Modelling conventions:

* Python dicts are association lists in insertion order; assignment to an
  existing key updates in place, assignment to a fresh key appends.
* Wall-clock timestamps (time.time(), datetime.now().isoformat()) are an
  abstract tick passed in as a natural number argument.
* Python exceptions and the error-dictionary returns of the managers are
  both modelled with Except String: an error result leaves the state
  unchanged, exactly as in the source where the error branch returns
  before any mutation.
* The plans map, per-plan locks and the persistence layer are elided:
  every operation acts on the one plan (or project) it looks up, and the
  plan-not-found branch of each method belongs to that elided map layer.
* External gateways (GitHubManager.create_branch, SlackManager
  create_thread) are oracle functions supplied as arguments; an
  exception raised by a gateway is an Except.error of the oracle.
* Floats are modelled by exact rationals.
-/

set_option linter.unusedVariables false
set_option maxHeartbeats 1000000

namespace Projector

/-! ### Python string helpers used by the plan-text feature extractor

All helpers are written as structural recursion over the character list
of the string, mirroring the Python semantics of the corresponding str
methods (strip, lstrip, startswith, split, replace, lower, membership).
-/

/-- Python str.strip() with no argument: drop surrounding whitespace. -/
def pyStrip (s : String) : String :=
  ⟨(((s.data.dropWhile Char.isWhitespace).reverse.dropWhile Char.isWhitespace).reverse)⟩

/-- Python str.lstrip("#"). -/
def pyLstripHash (s : String) : String := ⟨s.data.dropWhile (fun c => c = '#')⟩

/-- Python check for a one-character substring, as in ":" in line. -/
def pyContainsColon (s : String) : Bool := s.data.contains ':'

/-- Python str.startswith(prefixText). -/
def pyStartsWith (s prefixText : String) : Bool :=
  prefixText.data.isPrefixOf s.data

/-- Python str.lower(). -/
def pyLower (s : String) : String := ⟨s.data.map Char.toLower⟩

/-- Python str.split(sep) for a one-character separator. -/
def splitOnChar (cs : List Char) (c : Char) : List (List Char) :=
  match cs with
  | [] => [[]]
  | x :: rest =>
    let r := splitOnChar rest c
    if x = c then [] :: r
    else
      match r with
      | [] => [[x]]
      | h :: t => (x :: h) :: t

/-- Python line.split(":", 1)[1]: everything after the first colon.
Only used under a check that the colon occurs. -/
def pyAfterFirstColon (s : String) : String :=
  match splitOnChar s.data ':' with
  | [] => ""
  | _ :: rest => ⟨List.intercalate [':'] rest⟩

/-- Python str.split(","). -/
def pySplitComma (s : String) : List String :=
  (splitOnChar s.data ',').map (fun l => ⟨l⟩)

/-- Python text.split(newline), used to iterate the lines of the plan. -/
def pySplitLines (s : String) : List String :=
  (splitOnChar s.data '\n').map (fun l => ⟨l⟩)

/-- Python str.replace(old, new): replace every non-overlapping
occurrence from the left. The fuel argument is the length of the
scanned list; every caller passes a nonempty pattern. -/
def pyReplaceAux (fuel : Nat) (cs old new : List Char) : List Char :=
  match fuel, cs with
  | 0, cs => cs
  | _, [] => []
  | fuel + 1, c :: rest =>
    if old ≠ [] ∧ old.isPrefixOf (c :: rest) then
      new ++ pyReplaceAux fuel ((c :: rest).drop old.length) old new
    else
      c :: pyReplaceAux fuel rest old new

/-- Python str.replace(old, new). -/
def pyReplace (s old new : String) : String :=
  ⟨pyReplaceAux s.data.length s.data old.data new.data⟩

/-! ### Python dict as association list in insertion order -/

/-- Python d.get(k) / d[k]: first binding of the key. -/
def dictGet {α : Type} (d : List (String × α)) (k : String) : Option α :=
  (d.find? (fun p => p.1 = k)).map Prod.snd

/-- Python k in d. -/
def dictMem {α : Type} (d : List (String × α)) (k : String) : Bool :=
  (d.find? (fun p => p.1 = k)).isSome

/-- Python d[k] = v: update in place when the key exists (keeping its
position), append otherwise. -/
def dictSet {α : Type} (d : List (String × α)) (k : String) (v : α) :
    List (String × α) :=
  if (d.find? (fun p => p.1 = k)).isSome then
    d.map (fun p => if p.1 = k then (k, v) else p)
  else
    d ++ [(k, v)]

/-- Python list(d.keys()). -/
def dictKeys {α : Type} (d : List (String × α)) : List String :=
  d.map Prod.fst

/-! ### Data model of planning_manager.py -/

/-- Step dictionary built by _extract_features_from_plan and mutated by
update_step_status. -/
structure Step where
  description : String
  status : String
  updatedAt : Option Nat := none
  deriving Repr, DecidableEq

/-- Feature dictionary built by _extract_features_from_plan and mutated
by the lifecycle operations. -/
structure Feature where
  name : String
  description : String
  steps : List Step
  dependencies : List String
  complexity : String
  status : String
  startedAt : Option Nat := none
  completedAt : Option Nat := none
  deriving Repr, DecidableEq

/-- Plan dictionary built by create_plan. -/
structure Plan where
  id : String
  projectName : String
  requirements : String
  planText : String
  features : List (String × Feature)
  status : String
  createdAt : Nat
  updatedAt : Nat
  activeFeatures : List String
  completedFeatures : List String
  pendingFeatures : List String
  deriving Repr, DecidableEq

/-! ### PlanningManager._extract_features_from_plan -/

/-- Loop state of the extractor: the features dict built so far, the
feature currently being filled in, and its heading name (None before the
first heading; Python truthiness makes an empty-string name falsy). -/
structure ExtractState where
  features : List (String × Feature)
  currentFeature : Option Feature
  featureName : Option String
  deriving Repr

/-- Python truthiness of current_feature and feature_name: the dict is
always nonempty hence truthy, the name string is truthy iff nonempty. -/
def extractFlushGuard (st : ExtractState) : Bool :=
  match st.currentFeature, st.featureName with
  | some _, some n => n ≠ ""
  | _, _ => false

/-- Store the feature under construction, as in
features[feature_name] = current_feature. -/
def extractFlush (st : ExtractState) : List (String × Feature) :=
  if extractFlushGuard st then
    match st.currentFeature, st.featureName with
    | some f, some n => dictSet st.features n f
    | _, _ => st.features
  else st.features

/-- One line of the extractor loop body. -/
def extractLine (st : ExtractState) (rawLine : String) : ExtractState :=
  let line := pyStrip rawLine
  if pyStartsWith line "## Feature:" || pyStartsWith line "### Feature:" then
    let features := extractFlush st
    let featureName :=
      if pyContainsColon line then pyStrip (pyAfterFirstColon line)
      else pyStrip (pyLstripHash line)
    { features := features
      currentFeature := some (
        { name := featureName
          description := ""
          steps := []
          dependencies := []
          complexity := "medium"
          status := "not_started" })
      featureName := some featureName }
  else
    match st.currentFeature with
    | none => st
    | some f =>
      if pyStartsWith line "Description:" then
        let f2 := { f with description := pyStrip (pyReplace line "Description:" "") }
        { st with currentFeature := some f2 }
      else if pyStartsWith line "- [ ]" || pyStartsWith line "* [ ]" then
        let stepText := pyStrip (pyReplace (pyReplace line "- [ ]" "") "* [ ]" "")
        let newStep : Step := { description := stepText, status := "not_started" }
        let f2 := { f with steps := f.steps ++ [newStep] }
        { st with currentFeature := some f2 }
      else if pyStartsWith line "Dependencies:" then
        let depsText := pyStrip (pyReplace line "Dependencies:" "")
        if depsText ≠ "" then
          let f2 := { f with dependencies := (pySplitComma depsText).map pyStrip }
          { st with currentFeature := some f2 }
        else st
      else if pyStartsWith line "Complexity:" then
        let f2 := { f with complexity := pyLower (pyStrip (pyReplace line "Complexity:" "")) }
        { st with currentFeature := some f2 }
      else st

/-- PlanningManager._extract_features_from_plan. -/
def extractFeaturesFromPlan (planText : String) : List (String × Feature) :=
  let lines := pySplitLines planText
  let final := lines.foldl extractLine
    { features := [], currentFeature := none, featureName := none }
  extractFlush final

/-! ### PlanningManager lifecycle operations -/

/-- Python statement pair: if x in xs: xs.remove(x) (list.remove drops
the first occurrence). -/
def pyListRemoveIfMem (l : List String) (n : String) : List String :=
  if n ∈ l then l.erase n else l

/-- PlanningManager.create_plan with the plan text supplied (the branch
that generates plan text through the LLM agent is an external
collaborator and out of scope). -/
def create_plan (projectName requirements planText : String) (now : Nat) : Plan :=
  let features := extractFeaturesFromPlan planText
  { id := "plan_" ++ toString now
    projectName := projectName
    requirements := requirements
    planText := planText
    features := features
    status := "planning"
    createdAt := now
    updatedAt := now
    activeFeatures := []
    completedFeatures := []
    pendingFeatures := dictKeys features }

/-- PlanningManager.start_feature (on the plan already fetched from the
plans map). An error result leaves the plan unchanged. -/
def start_feature (now : Nat) (plan : Plan) (featureName : String) :
    Except String Plan :=
  match dictGet plan.features featureName with
  | none => .error ("Feature " ++ featureName ++ " not found in plan")
  | some feature =>
    if featureName ∈ plan.activeFeatures then
      .error ("Feature " ++ featureName ++ " is already active")
    else if featureName ∈ plan.completedFeatures then
      .error ("Feature " ++ featureName ++ " is already completed")
    else
      match feature.dependencies.find? (fun dep => dep ∉ plan.completedFeatures) with
      | some dep => .error ("Dependency " ++ dep ++ " is not completed yet")
      | none =>
        let pendingFeatures := pyListRemoveIfMem plan.pendingFeatures featureName
        let feature := { feature with status := "in_progress", startedAt := some now }
        .ok { plan with
          pendingFeatures := pendingFeatures
          activeFeatures := plan.activeFeatures ++ [featureName]
          features := dictSet plan.features featureName feature
          updatedAt := now }

/-- PlanningManager.complete_feature. Note that the source checks only
that the feature is not already completed; it does not require the
feature to be in progress, and it does not remove the name from the
pending list. -/
def complete_feature (now : Nat) (plan : Plan) (featureName : String) :
    Except String Plan :=
  match dictGet plan.features featureName with
  | none => .error ("Feature " ++ featureName ++ " not found in plan")
  | some feature =>
    if featureName ∈ plan.completedFeatures then
      .error ("Feature " ++ featureName ++ " is already completed")
    else
      let activeFeatures := pyListRemoveIfMem plan.activeFeatures featureName
      let completedFeatures := plan.completedFeatures ++ [featureName]
      let feature := { feature with status := "completed", completedAt := some now }
      let features := dictSet plan.features featureName feature
      let planStatus :=
        if completedFeatures.length = features.length then "completed"
        else plan.status
      .ok { plan with
        activeFeatures := activeFeatures
        completedFeatures := completedFeatures
        features := features
        status := planStatus
        updatedAt := now }

/-- PlanningManager.update_feature_status. The source performs no
transition validation: any status string is written, and the three list
branches fire only for the three recognised statuses. -/
def update_feature_status (now : Nat) (plan : Plan)
    (featureName status : String) : Except String Plan :=
  match dictGet plan.features featureName with
  | none => .error ("Feature " ++ featureName ++ " not found in plan")
  | some feature0 =>
    let feature1 := { feature0 with status := status }
    let st :=
      if status = "completed" ∧ featureName ∉ plan.completedFeatures then
        { plan with
          activeFeatures := pyListRemoveIfMem plan.activeFeatures featureName
          pendingFeatures := pyListRemoveIfMem plan.pendingFeatures featureName
          completedFeatures := plan.completedFeatures ++ [featureName]
          features := dictSet plan.features featureName
            { feature1 with completedAt := some now } }
      else if status = "in_progress" ∧ featureName ∉ plan.activeFeatures then
        { plan with
          pendingFeatures := pyListRemoveIfMem plan.pendingFeatures featureName
          completedFeatures := pyListRemoveIfMem plan.completedFeatures featureName
          activeFeatures := plan.activeFeatures ++ [featureName]
          features := dictSet plan.features featureName
            { feature1 with startedAt := some now } }
      else if status = "not_started" ∧ featureName ∉ plan.pendingFeatures then
        { plan with
          activeFeatures := pyListRemoveIfMem plan.activeFeatures featureName
          completedFeatures := pyListRemoveIfMem plan.completedFeatures featureName
          pendingFeatures := plan.pendingFeatures ++ [featureName]
          features := dictSet plan.features featureName feature1 }
      else
        { plan with features := dictSet plan.features featureName feature1 }
    let st := { st with updatedAt := now }
    let st :=
      if status = "completed" ∧ st.completedFeatures.length = st.features.length then
        { st with status := "completed" }
      else if st.status = "completed" ∧ st.completedFeatures.length < st.features.length then
        { st with status := "in_progress" }
      else st
    .ok st

/-- PlanningManager.update_step_status. When the update completes the
last step, the source auto-completes the feature through
update_feature_status (whose return value it discards). -/
def update_step_status (now : Nat) (plan : Plan) (featureName : String)
    (stepIndex : Int) (status : String) : Except String Plan :=
  match dictGet plan.features featureName with
  | none => .error ("Feature " ++ featureName ++ " not found in plan")
  | some feature =>
    if stepIndex < 0 ∨ stepIndex ≥ feature.steps.length then
      .error ("Step index " ++ toString stepIndex ++ " is out of range")
    else
      let i := stepIndex.toNat
      let steps := feature.steps.map
        (fun s => s) |>.enum.map
        (fun p => if p.1 = i then
            { p.2 with status := status, updatedAt := some now }
          else p.2)
      let feature := { feature with steps := steps }
      let plan := { plan with features := dictSet plan.features featureName feature }
      let allCompleted := steps.all (fun s => s.status = "completed")
      if allCompleted ∧ feature.status ≠ "completed" then
        match update_feature_status now plan featureName "completed" with
        | .ok p2 => .ok p2
        | .error _ => .ok plan
      else
        .ok plan

/-- Result record of PlanningManager.get_plan_progress (the fields the
claims are about). Percentages are exact rationals. -/
structure PlanProgress where
  totalFeatures : Nat
  completedFeatures : Nat
  activeFeatures : Nat
  pendingFeatures : Nat
  featureProgress : ℚ
  totalSteps : Nat
  completedSteps : Nat
  stepProgress : ℚ
  deriving Repr, DecidableEq

/-- PlanningManager.get_plan_progress (on the plan already fetched). -/
def get_plan_progress (plan : Plan) : PlanProgress :=
  let totalFeatures := plan.features.length
  let completedFeatures := plan.completedFeatures.length
  let activeFeatures := plan.activeFeatures.length
  let pendingFeatures := plan.pendingFeatures.length
  let totalSteps := (plan.features.map (fun p => p.2.steps.length)).sum
  let completedSteps := (plan.features.map
    (fun p => (p.2.steps.filter (fun s => s.status = "completed")).length)).sum
  { totalFeatures := totalFeatures
    completedFeatures := completedFeatures
    activeFeatures := activeFeatures
    pendingFeatures := pendingFeatures
    featureProgress :=
      if totalFeatures > 0 then (completedFeatures : ℚ) / totalFeatures * 100 else 0
    totalSteps := totalSteps
    completedSteps := completedSteps
    stepProgress :=
      if totalSteps > 0 then (completedSteps : ℚ) / totalSteps * 100 else 0 }

/-! ### Operation sequences over one plan -/

/-- One PlanningManager lifecycle call on a plan, tagged with the clock
tick at which it runs. -/
inductive Op where
  | startF (featureName : String)
  | completeF (featureName : String)
  | updateF (featureName status : String)
  | updateStep (featureName : String) (stepIndex : Int) (status : String)
  deriving Repr, DecidableEq

/-- Apply one operation; an error result leaves the plan unchanged, as
the source error branches return before mutating. -/
def applyOp (now : Nat) (plan : Plan) (op : Op) : Plan :=
  match op with
  | .startF n =>
    match start_feature now plan n with
    | .ok p => p
    | .error _ => plan
  | .completeF n =>
    match complete_feature now plan n with
    | .ok p => p
    | .error _ => plan
  | .updateF n s =>
    match update_feature_status now plan n s with
    | .ok p => p
    | .error _ => plan
  | .updateStep n i s =>
    match update_step_status now plan n i s with
    | .ok p => p
    | .error _ => plan

/-- Run a sequence of timestamped operations. -/
def runOps (plan : Plan) : List (Nat × Op) → Plan
  | [] => plan
  | (now, op) :: rest => runOps (applyOp now plan op) rest

/-! ### Data model of project_manager.py -/

/-- Project feature dictionaries share the shape built by the feature
extractor; start_implementation adds the branch, started_at and
thread_ts keys, modelled as optional fields. -/
structure PFeature where
  name : String
  description : String
  steps : List Step
  dependencies : List String
  complexity : String
  status : String
  branch : Option String := none
  startedAt : Option Nat := none
  completedAt : Option Nat := none
  threadTs : Option String := none
  deriving Repr, DecidableEq

/-- Branch bookkeeping entry written into project.branches. -/
structure BranchInfo where
  name : String
  createdAt : Nat
  status : String
  deriving Repr, DecidableEq

/-- Entry of project.pr_status (only the field handle_pr_merged reads). -/
structure PrInfo where
  prNumber : Option Int := none
  deriving Repr, DecidableEq

/-- Result of GitHubManager.merge_pull_request, kept in project.merges. -/
structure MergeInfo where
  success : Bool
  prNumber : Int
  deriving Repr, DecidableEq

/-- Fields of backend.project.Project that the modelled operations
touch. Project.from_dict accepts arbitrary stored values, so any record
of this shape is a constructible project state. -/
structure Project where
  name : String
  gitUrl : String
  slackChannel : String
  maxParallelTasks : Int
  features : List (String × PFeature)
  branches : List (String × BranchInfo)
  activeThreads : List (String × Option String)
  prStatus : List (String × PrInfo)
  merges : List MergeInfo
  deriving Repr, DecidableEq

/-- Entry of ProjectManager.active_implementations for one project. -/
structure Implementation where
  activeFeatures : List String
  completedFeatures : List String
  pendingFeatures : List String
  maxConcurrent : Int
  deriving Repr, DecidableEq

/-- Entry of ProjectManager.project_progress for one project (plain
Python ints, so counters may go negative). -/
structure ProgressCounters where
  totalFeatures : Int
  completedFeatures : Int
  inProgressFeatures : Int
  pendingFeatures : Int
  deriving Repr, DecidableEq

/-- Return dictionary of SlackManager.create_thread. -/
structure SlackResp where
  ok : Bool
  ts : Option String := none
  deriving Repr, DecidableEq

/-- External gateway oracles consumed during admission. An Except.error
models the call raising an exception; for create_thread a returned
record with ok set to false models a non-raising failure reply. -/
structure Gateways where
  createBranch : String → String → String → Except String Unit
  createThread : String → String → Except String SlackResp

/-- Python lowercasing plus replacement of spaces by hyphens, as
applied to both the project name and the feature name. -/
def pyDash (s : String) : String := pyReplace (pyLower s) " " "-"

/-- Branch name formatted in start_implementation. -/
def branchNameOf (projectName featureName : String) : String :=
  pyDash projectName ++ "-" ++ pyDash featureName

/-- Slack message text formatted in start_implementation. -/
def threadMessage (featureName description branchName : String) : String :=
  "Starting implementation of feature: *" ++ featureName ++ "*\n\n" ++
    description ++ "\n\nBranch: `" ++ branchName ++ "`"

/-- State threaded through the admission loop of start_implementation. -/
structure AdmitState where
  project : Project
  impl : Implementation
  progress : ProgressCounters
  started : List String
  deriving Repr

/-- Loop body of start_implementation, iterated features_to_start
times. Each iteration pops the head of the pending list; if a gateway
call raises, the except branch logs and reinserts the popped name at
index 0 of the pending list and the loop moves to its next iteration.
A missing feature key would raise an uncaught KeyError, modelled as an
error of the whole call (the claims never reach this branch because the
pending list only holds feature keys). -/
def admitLoop (gw : Gateways) (now : Nat) :
    Nat → AdmitState → Except String AdmitState
  | 0, st => .ok st
  | k + 1, st =>
    match hp : st.impl.pendingFeatures with
    | [] => .ok st
    | featureName :: rest =>
      match dictGet st.project.features featureName with
      | none => .error ("KeyError: " ++ featureName)
      | some feature =>
        let bname := branchNameOf st.project.name featureName
        match gw.createBranch st.project.gitUrl bname "main" with
        | .error _ =>
          let impl2 := { st.impl with pendingFeatures := featureName :: rest }
          admitLoop gw now k { st with impl := impl2 }
        | .ok _ =>
          let branches2 := dictSet st.project.branches featureName
            { name := bname, createdAt := now, status := "active" }
          let feature2 := { feature with
            status := "in_progress"
            branch := some bname
            startedAt := some now }
          let features2 := dictSet st.project.features featureName feature2
          match gw.createThread st.project.slackChannel
              (threadMessage featureName feature.description bname) with
          | .error _ =>
            let project2 := { st.project with
              branches := branches2, features := features2 }
            let impl2 := { st.impl with pendingFeatures := featureName :: rest }
            admitLoop gw now k { st with project := project2, impl := impl2 }
          | .ok tr =>
            let feature3 :=
              if tr.ok then { feature2 with threadTs := tr.ts } else feature2
            let features3 := dictSet st.project.features featureName feature3
            let activeThreads2 :=
              if tr.ok then dictSet st.project.activeThreads featureName tr.ts
              else st.project.activeThreads
            let project2 := { st.project with
              branches := branches2
              features := features3
              activeThreads := activeThreads2 }
            let impl2 := { st.impl with
              pendingFeatures := rest
              activeFeatures := st.impl.activeFeatures ++ [featureName] }
            let progress2 := { st.progress with
              inProgressFeatures := st.progress.inProgressFeatures + 1
              pendingFeatures := st.progress.pendingFeatures - 1 }
            admitLoop gw now k
              { project := project2
                impl := impl2
                progress := progress2
                started := st.started ++ [featureName] }

/-- Python expression max_concurrent_features or project.max_parallel_tasks
(None and 0 are falsy and fall back to the project default). -/
def effectiveMaxConcurrent (proj : Project) (maxConcurrentFeatures : Option Int) : Int :=
  match maxConcurrentFeatures with
  | some v => if v = 0 then proj.maxParallelTasks else v
  | none => proj.maxParallelTasks

/-- ProjectManager.start_implementation on one project. The argument
implOpt is the entry of active_implementations for this project (None on
the first call). Returns the updated project, implementation entry,
progress counters, and the started_features list of the result
dictionary. -/
def start_implementation (gw : Gateways) (now : Nat) (proj : Project)
    (implOpt : Option Implementation) (prog : ProgressCounters)
    (maxConcurrentFeatures : Option Int) :
    Except String (Project × Implementation × ProgressCounters × List String) :=
  if proj.features.isEmpty then
    .error "No features defined for this project"
  else
    let maxConcurrent := effectiveMaxConcurrent proj maxConcurrentFeatures
    let impl :=
      match implOpt with
      | some i => i
      | none =>
        { activeFeatures := []
          completedFeatures := []
          pendingFeatures := dictKeys proj.features
          maxConcurrent := maxConcurrent }
    let availableSlots : Int := maxConcurrent - impl.activeFeatures.length
    let featuresToStart : Int := min availableSlots (impl.pendingFeatures.length : Int)
    match admitLoop gw now featuresToStart.toNat
        { project := proj, impl := impl, progress := prog, started := [] } with
    | .error e => .error e
    | .ok st => .ok (st.project, st.impl, st.progress, st.started)

/-- ProjectManager.handle_pr_merged on one project. The merge oracle
models GitHubManager.merge_pull_request. The Slack notification has no
observable effect on project state and is elided. Returns the updated
project, progress counters, and the feature_name of the result. -/
def handle_pr_merged (mergePR : Int → MergeInfo) (now : Nat) (proj : Project)
    (prog : ProgressCounters) (prNumber : Int) :
    Except String (Project × ProgressCounters × Option String) :=
  let mergeInfo := mergePR prNumber
  if ¬ mergeInfo.success then
    .error "Failed to merge PR"
  else
    let proj := { proj with merges := proj.merges ++ [mergeInfo] }
    let featureName :=
      (proj.prStatus.find? (fun p => p.2.prNumber = some prNumber)).map Prod.fst
    match featureName with
    | some fname =>
      if fname ≠ "" ∧ dictMem proj.features fname then
        match dictGet proj.features fname with
        | some feature =>
          let feature := { feature with status := "completed", completedAt := some now }
          let proj := { proj with features := dictSet proj.features fname feature }
          let prog := { prog with
            completedFeatures := prog.completedFeatures + 1
            inProgressFeatures := prog.inProgressFeatures - 1 }
          .ok (proj, prog, some fname)
        | none => .ok (proj, prog, some fname)
      else .ok (proj, prog, some fname)
    | none => .ok (proj, prog, none)

/-! ### utils.py progress estimate -/

/-- Python round to the nearest integer with ties to even, applied to
the exact rational value. -/
def pyRoundInt (q : ℚ) : ℤ :=
  let f := ⌊q⌋
  let r := q - f
  if r < 1 / 2 then f
  else if r > 1 / 2 then f + 1
  else if f % 2 = 0 then f else f + 1

/-- Python round(x, 1). -/
def pyRound1 (q : ℚ) : ℚ := (pyRoundInt (q * 10) : ℚ) / 10

/-- utils.estimate_project_completion over a features dictionary. -/
def estimate_project_completion (features : List (String × PFeature)) : ℚ :=
  if features.isEmpty then 0
  else
    let totalFeatures := features.length
    let completedFeatures :=
      (features.filter (fun p => p.2.status = "completed")).length
    let inProgressFeatures :=
      (features.filter (fun p => p.2.status = "in_progress")).length
    let completion : ℚ :=
      ((completedFeatures : ℚ) + (inProgressFeatures : ℚ) * (1 / 2)) / totalFeatures
    pyRound1 (completion * 100)

/-! ### thread_pool.py wait_completion -/

/-- Python exceptions relevant to ThreadPool.wait_completion. -/
inductive PyExc where
  | typeErr
  | queueEmpty
  deriving Repr, DecidableEq

/-- The call self.task_queue.join(timeout=timeout). In CPython the
signature of queue.Queue.join is join(self): it accepts no timeout
parameter, so passing the timeout keyword raises TypeError before any
waiting happens, for every timeout value including None. -/
def queueJoinKeywordCall (timeout : Option ℚ) : Except PyExc Unit :=
  .error .typeErr

/-- ThreadPool.wait_completion: the try block around the join call
catches only queue.Empty (returning False); any other exception
propagates to the caller. -/
def wait_completion (timeout : Option ℚ) : Except PyExc Bool :=
  match queueJoinKeywordCall timeout with
  | .ok _ => .ok true
  | .error .queueEmpty => .ok false
  | .error e => .error e

/-! ### Invariants of the plan state -/

/-- No feature name occurs twice inside any single one of the three
lifecycle lists. -/
def NodupLists (p : Plan) : Prop :=
  p.pendingFeatures.Nodup ∧ p.activeFeatures.Nodup ∧ p.completedFeatures.Nodup

/-- A feature record sits in exactly one of the three lists and the list
matches its status field. -/
def FeaturePlacement (p : Plan) (n : String) (f : Feature) : Prop :=
  (f.status = "not_started" ∧ n ∈ p.pendingFeatures ∧
    n ∉ p.activeFeatures ∧ n ∉ p.completedFeatures) ∨
  (f.status = "in_progress" ∧ n ∉ p.pendingFeatures ∧
    n ∈ p.activeFeatures ∧ n ∉ p.completedFeatures) ∨
  (f.status = "completed" ∧ n ∉ p.pendingFeatures ∧
    n ∉ p.activeFeatures ∧ n ∈ p.completedFeatures)

/-- Structural invariant of a plan: unique feature keys, duplicate-free
lists drawn from the feature keys, and status-consistent placement of
every feature in exactly one list. -/
def PlanInv (p : Plan) : Prop :=
  (dictKeys p.features).Nodup ∧
  NodupLists p ∧
  p.pendingFeatures ⊆ dictKeys p.features ∧
  p.activeFeatures ⊆ dictKeys p.features ∧
  p.completedFeatures ⊆ dictKeys p.features ∧
  ∀ n f, dictGet p.features n = some f → FeaturePlacement p n f

/-- Invariant tying the plan status to the completed count: the plan is
marked completed exactly when every feature key is in the completed
list. -/
def CompletionInv (p : Plan) : Prop :=
  (dictKeys p.features).Nodup ∧
  p.completedFeatures.Nodup ∧
  p.completedFeatures ⊆ dictKeys p.features ∧
  (p.status = "completed" ↔ p.completedFeatures.length = p.features.length)

/-- Invariant of the extractor loop state. -/
def ExtractInv (st : ExtractState) : Prop :=
  (dictKeys st.features).Nodup ∧
  (∀ pr ∈ st.features, pr.2.status = "not_started") ∧
  (∀ f, st.currentFeature = some f → f.status = "not_started")

/-! ### Guarded reachability: plans built by create_plan and mutated by
the lifecycle operations, where complete_feature is only invoked on
active features and update_feature_status only with a list-managed
status -/

inductive ReachSafe : Plan → Prop where
  | base (projectName requirements planText : String) (now : Nat) :
      ReachSafe (create_plan projectName requirements planText now)
  | stepStart (p : Plan) (now : Nat) (n : String) : ReachSafe p →
      ReachSafe (applyOp now p (.startF n))
  | stepComplete (p : Plan) (now : Nat) (n : String) : ReachSafe p →
      n ∈ p.activeFeatures → ReachSafe (applyOp now p (.completeF n))
  | stepUpdate (p : Plan) (now : Nat) (n s : String) : ReachSafe p →
      s = "not_started" ∨ s = "in_progress" ∨ s = "completed" →
      ReachSafe (applyOp now p (.updateF n s))
  | stepUpdateStep (p : Plan) (now : Nat) (n : String) (i : Int) (s : String) :
      ReachSafe p → ReachSafe (applyOp now p (.updateStep n i s))


/-! ### Concrete fixtures used by the claim counterexamples and
witnesses -/

/-- Gateway oracle where every call succeeds. -/
def okGateways : Gateways :=
  { createBranch := fun _ _ _ => .ok ()
    createThread := fun _ _ => .ok { ok := true, ts := some "100.1" } }

/-- Gateway oracle where branch creation raises for the branch p-a and
succeeds for every other branch. -/
def failHeadGateways : Gateways :=
  { createBranch := fun _ branchName _ =>
      if branchName = "p-a" then .error "github boom" else .ok ()
    createThread := fun _ _ => .ok { ok := true, ts := some "100.1" } }

def pfeatNoDeps (nm : String) : PFeature :=
  { name := nm
    description := "base"
    steps := []
    dependencies := []
    complexity := "medium"
    status := "not_started" }

def pfeatDepA (nm : String) : PFeature :=
  { name := nm
    description := "depends on A"
    steps := []
    dependencies := ["A"]
    complexity := "medium"
    status := "not_started" }

/-- Project with feature B (declared first, depending on A) and feature
A, and a parallel-task cap of one. -/
def c1Project : Project :=
  { name := "p"
    gitUrl := "git"
    slackChannel := "chan"
    maxParallelTasks := 1
    features := [("B", pfeatDepA "B"), ("A", pfeatNoDeps "A")]
    branches := []
    activeThreads := []
    prStatus := []
    merges := [] }

def c1Progress : ProgressCounters := ⟨2, 0, 0, 2⟩

/-- Project with two independent features a and b, in that pending
order, and a cap of two. -/
def c2Project : Project :=
  { name := "p"
    gitUrl := "git"
    slackChannel := "chan"
    maxParallelTasks := 2
    features := [("a", pfeatNoDeps "a"), ("b", pfeatNoDeps "b")]
    branches := []
    activeThreads := []
    prStatus := []
    merges := [] }

def c2Implementation : Implementation :=
  { activeFeatures := []
    completedFeatures := []
    pendingFeatures := ["a", "b"]
    maxConcurrent := 2 }

def c2Progress : ProgressCounters := ⟨2, 0, 0, 2⟩

/-- Implementation entry of the result of a start_implementation call
(a default entry when the call returned an error). -/
def implAfter
    (r : Except String (Project × Implementation × ProgressCounters × List String)) :
    Implementation :=
  match r with
  | .ok q => q.2.1
  | .error _ => ⟨[], [], [], 0⟩

/-- The started_features entry of the result of a start_implementation
call. -/
def startedAfter
    (r : Except String (Project × Implementation × ProgressCounters × List String)) :
    List String :=
  match r with
  | .ok q => q.2.2.2
  | .error _ => []

/-- Project component of the result of a start_implementation call. -/
def projAfter
    (r : Except String (Project × Implementation × ProgressCounters × List String)) :
    Project :=
  match r with
  | .ok q => q.1
  | .error _ => ⟨"", "", "", 0, [], [], [], [], []⟩

/-- Plan with one feature A and nothing else. -/
def c3Plan : Plan := create_plan "demo" "req" "## Feature: A" 0

/-- The record the extractor builds for the heading Feature: A. -/
def featA : Feature :=
  { name := "A"
    description := ""
    steps := []
    dependencies := []
    complexity := "medium"
    status := "not_started" }

/-- Plan whose single feature A is already completed. -/
def c4Plan : Plan :=
  { id := "plan_0"
    projectName := "demo"
    requirements := "req"
    planText := ""
    features := [("A", { featA with status := "completed" })]
    status := "in_progress"
    createdAt := 0
    updatedAt := 0
    activeFeatures := []
    completedFeatures := ["A"]
    pendingFeatures := [] }

/-- Plan with pending feature A and feature B depending on A. -/
def c5Plan : Plan :=
  create_plan "demo" "req" "## Feature: A\n## Feature: B\nDependencies: A" 0

/-- Plan used for the dependency-gate witness: B declared first with a
dependency on A. -/
def c1Plan : Plan :=
  create_plan "demo" "req" "## Feature: B\nDependencies: A\n## Feature: A" 0

/-- The record the extractor builds for feature B of c1Plan. -/
def featBdepA : Feature :=
  { name := "B"
    description := ""
    steps := []
    dependencies := ["A"]
    complexity := "medium"
    status := "not_started" }

/-- Scenario D plan: four features, two completed, one in progress, one
pending. -/
def scenarioDPlan : Plan :=
  { id := "plan_0"
    projectName := "demo"
    requirements := "req"
    planText := ""
    features := [("A", { featA with name := "A", status := "completed" }),
      ("B", { featA with name := "B", status := "completed" }),
      ("C", { featA with name := "C", status := "in_progress" }),
      ("D", { featA with name := "D" })]
    status := "in_progress"
    createdAt := 0
    updatedAt := 0
    activeFeatures := ["C"]
    completedFeatures := ["A", "B"]
    pendingFeatures := ["D"] }

/-- Scenario D features dictionary for the weighted estimate. -/
def scenarioDFeatures : List (String × PFeature) :=
  [("A", { pfeatNoDeps "A" with status := "completed" }),
    ("B", { pfeatNoDeps "B" with status := "completed" }),
    ("C", { pfeatNoDeps "C" with status := "in_progress" }),
    ("D", pfeatNoDeps "D")]

/-- Three features with one completed: the weighted estimate rounds
100/3 to one decimal. -/
def c8Features : List (String × PFeature) :=
  [("A", { pfeatNoDeps "A" with status := "completed" }),
    ("B", pfeatNoDeps "B"),
    ("C", pfeatNoDeps "C")]

/-! ### Lemmas about the dictionary model -/


theorem find_isSome_iff_mem_dictKeys {α : Type} (d : List (String × α)) (k : String) :
    (d.find? (fun p => p.1 = k)).isSome ↔ k ∈ dictKeys d := by
  rw [List.find?_isSome]
  simp [dictKeys, eq_comm]

theorem dictGet_isSome_iff {α : Type} (d : List (String × α)) (k : String) :
    (dictGet d k).isSome ↔ k ∈ dictKeys d := by
  rw [← find_isSome_iff_mem_dictKeys]
  simp [dictGet]

theorem dictGet_eq_none_iff {α : Type} (d : List (String × α)) (k : String) :
    dictGet d k = none ↔ k ∉ dictKeys d := by
  rw [← dictGet_isSome_iff]
  cases dictGet d k <;> simp

theorem dictGet_mem {α : Type} {d : List (String × α)} {k : String} {v : α}
    (h : dictGet d k = some v) : (k, v) ∈ d := by
  simp only [dictGet, Option.map_eq_some'] at h
  obtain ⟨a, ha, hv⟩ := h
  have hk := List.find?_some ha
  have hmem := List.mem_of_find?_eq_some ha
  simp only [decide_eq_true_eq] at hk
  have : a = (k, v) := by
    cases a
    simp_all
  rwa [this] at hmem

theorem dictGet_mem_keys {α : Type} {d : List (String × α)} {k : String} {v : α}
    (h : dictGet d k = some v) : k ∈ dictKeys d := by
  rw [← dictGet_isSome_iff, h]
  rfl

/-- The in-place update function of dictSet never changes the key of an
entry. -/
theorem dictSetFun_fst {α : Type} (k : String) (v : α) (p : String × α) :
    ((if p.1 = k then (k, v) else p).1) = p.1 := by
  by_cases h : p.1 = k <;> simp [h]

theorem find_map_dictSetFun {α : Type} (d : List (String × α)) (k k2 : String) (v : α) :
    (d.map (fun p => if p.1 = k then (k, v) else p)).find? (fun p => p.1 = k2)
      = Option.map (fun p => if p.1 = k then (k, v) else p)
          (d.find? (fun p => p.1 = k2)) := by
  induction d with
  | nil => rfl
  | cons hd tl ih =>
    simp only [List.map_cons]
    by_cases h2 : hd.1 = k2
    · rw [List.find?_cons_of_pos, List.find?_cons_of_pos]
      · simp
      · simpa using h2
      · simpa using (dictSetFun_fst k v hd).trans h2
    · rw [List.find?_cons_of_neg, List.find?_cons_of_neg]
      · exact ih
      · simpa using h2
      · simpa using fun hc => h2 ((dictSetFun_fst k v hd).symm.trans hc)

theorem dictKeys_dictSet {α : Type} (d : List (String × α)) (k : String) (v : α) :
    dictKeys (dictSet d k v) =
      if k ∈ dictKeys d then dictKeys d else dictKeys d ++ [k] := by
  by_cases h : k ∈ dictKeys d
  · have hs : (d.find? (fun p => p.1 = k)).isSome = true :=
      (find_isSome_iff_mem_dictKeys d k).mpr h
    simp only [dictSet, hs, if_true, if_pos h]
    simp only [dictKeys, List.map_map]
    apply List.map_congr_left
    intro p hp
    exact dictSetFun_fst k v p
  · have hs : ¬ ((d.find? (fun p => p.1 = k)).isSome = true) := by
      rw [find_isSome_iff_mem_dictKeys]
      exact h
    simp only [dictSet, hs, if_false, if_neg h]
    simp [dictKeys]

theorem dictKeys_dictSet_of_mem {α : Type} {d : List (String × α)} {k : String}
    (v : α) (h : k ∈ dictKeys d) : dictKeys (dictSet d k v) = dictKeys d := by
  rw [dictKeys_dictSet, if_pos h]

theorem length_dictSet_of_mem {α : Type} {d : List (String × α)} {k : String}
    (v : α) (h : k ∈ dictKeys d) : (dictSet d k v).length = d.length := by
  have h1 : (dictSet d k v).length = (dictKeys (dictSet d k v)).length := by
    simp [dictKeys]
  have h2 : d.length = (dictKeys d).length := by simp [dictKeys]
  rw [h1, h2, dictKeys_dictSet_of_mem v h]

theorem mem_dictSet {α : Type} {d : List (String × α)} {k : String} {v : α}
    {pr : String × α} (h : pr ∈ dictSet d k v) : pr = (k, v) ∨ pr ∈ d := by
  simp only [dictSet] at h
  by_cases hs : (d.find? (fun p => p.1 = k)).isSome = true
  · rw [if_pos hs] at h
    obtain ⟨q, hq, hq2⟩ := List.mem_map.mp h
    by_cases hk : q.1 = k
    · left
      rw [← hq2]
      simp [hk]
    · right
      rw [← hq2]
      simpa [hk] using hq
  · rw [if_neg hs] at h
    rcases List.mem_append.mp h with h1 | h1
    · right; exact h1
    · left; simpa using h1

theorem dictGet_dictSet_self {α : Type} (d : List (String × α)) (k : String) (v : α) :
    dictGet (dictSet d k v) k = some v := by
  simp only [dictGet, dictSet]
  by_cases hs : (d.find? (fun p => p.1 = k)).isSome = true
  · rw [if_pos hs, find_map_dictSetFun]
    obtain ⟨a, ha⟩ := Option.isSome_iff_exists.mp hs
    have hk := List.find?_some ha
    simp only [decide_eq_true_eq] at hk
    rw [ha]
    simp [hk]
  · rw [if_neg hs, List.find?_append]
    have hnone : d.find? (fun p => decide (p.1 = k)) = none := by
      cases hfind : d.find? (fun p => decide (p.1 = k))
      · rfl
      · rw [hfind] at hs; simp at hs
    rw [hnone]
    simp [List.find?]

theorem dictGet_dictSet_ne {α : Type} (d : List (String × α)) (k k2 : String) (v : α)
    (h : k2 ≠ k) : dictGet (dictSet d k v) k2 = dictGet d k2 := by
  simp only [dictGet, dictSet]
  by_cases hs : (d.find? (fun p => p.1 = k)).isSome = true
  · rw [if_pos hs, find_map_dictSetFun]
    cases hfind : d.find? (fun p => decide (p.1 = k2)) with
    | none => rfl
    | some a =>
      have hk2 := List.find?_some hfind
      simp only [decide_eq_true_eq] at hk2
      have hak : ¬ a.1 = k := by
        rw [hk2]
        exact h
      simp [hak]
  · rw [if_neg hs, List.find?_append]
    have hkk : ¬ k = k2 := fun hc => h hc.symm
    have hlast : List.find? (fun p => decide (p.1 = k2)) [(k, v)] = none := by
      simp [List.find?, hkk]
    rw [hlast]
    cases List.find? (fun p => decide (p.1 = k2)) d <;> rfl

/-! ### Lemmas about pyListRemoveIfMem -/

theorem pyListRemoveIfMem_subset (l : List String) (n : String) :
    pyListRemoveIfMem l n ⊆ l := by
  unfold pyListRemoveIfMem
  split
  · intro x hx
    exact List.mem_of_mem_erase hx
  · exact fun _ h => h

theorem pyListRemoveIfMem_nodup {l : List String} (n : String) (h : l.Nodup) :
    (pyListRemoveIfMem l n).Nodup := by
  unfold pyListRemoveIfMem
  split
  · exact h.erase n
  · exact h

theorem self_not_mem_pyListRemoveIfMem {l : List String} {n : String}
    (h : l.Nodup) : n ∉ pyListRemoveIfMem l n := by
  unfold pyListRemoveIfMem
  split
  · exact h.not_mem_erase
  · assumption

theorem mem_pyListRemoveIfMem_of_ne {l : List String} {m n : String}
    (h : m ≠ n) : m ∈ pyListRemoveIfMem l n ↔ m ∈ l := by
  unfold pyListRemoveIfMem
  split
  · exact List.mem_erase_of_ne h
  · exact Iff.rfl

theorem pyListRemoveIfMem_length_le (l : List String) (n : String) :
    (pyListRemoveIfMem l n).length ≤ l.length := by
  unfold pyListRemoveIfMem
  split
  · exact List.length_erase_le n l
  · exact Nat.le_refl _

/-! ### The feature extractor produces unique, not-started features -/

section ExtractorLemmas

attribute [local irreducible] pyStrip pyLstripHash pyContainsColon
attribute [local irreducible] pyAfterFirstColon pyReplace pySplitComma
attribute [local irreducible] pyStartsWith pyLower

theorem extractFlush_nodup {st : ExtractState} (h : ExtractInv st) :
    (dictKeys (extractFlush st)).Nodup := by
  obtain ⟨h1, h2, h3⟩ := h
  unfold extractFlush
  split
  · cases hcf : st.currentFeature with
    | none => simpa [hcf] using h1
    | some f =>
      cases hfn : st.featureName with
      | none => simpa [hcf, hfn] using h1
      | some nm =>
        simp only [hcf, hfn]
        rw [dictKeys_dictSet]
        split
        · exact h1
        · next hnm =>
          simp [List.nodup_append, h1, hnm]
  · exact h1

theorem extractFlush_status {st : ExtractState} (h : ExtractInv st) :
    ∀ pr ∈ extractFlush st, pr.2.status = "not_started" := by
  obtain ⟨h1, h2, h3⟩ := h
  intro pr hpr
  unfold extractFlush at hpr
  split at hpr
  · cases hcf : st.currentFeature with
    | none => exact h2 pr (by simpa [hcf] using hpr)
    | some f =>
      cases hfn : st.featureName with
      | none => exact h2 pr (by simpa [hcf, hfn] using hpr)
      | some nm =>
        rw [hcf, hfn] at hpr
        rcases mem_dictSet hpr with heq | hmem
        · rw [heq]
          exact h3 f hcf
        · exact h2 pr hmem
  · exact h2 pr hpr

theorem extractLine_inv {st : ExtractState} (line : String)
    (h : ExtractInv st) : ExtractInv (extractLine st line) := by
  have hflushN := extractFlush_nodup h
  have hflushS := extractFlush_status h
  obtain ⟨h1, h2, h3⟩ := h
  simp only [extractLine]
  split
  · exact ⟨hflushN, hflushS, by intro f hf; simp at hf; rw [← hf]⟩
  · split
    · exact ⟨h1, h2, h3⟩
    · rename_i f heq
      have hfns := h3 f heq
      split
      · exact ⟨h1, h2, by intro g hg; injection hg with hg2; rw [← hg2]; exact hfns⟩
      · split
        · exact ⟨h1, h2, by intro g hg; injection hg with hg2; rw [← hg2]; exact hfns⟩
        · split
          · split
            · exact ⟨h1, h2, by intro g hg; injection hg with hg2; rw [← hg2]; exact hfns⟩
            · exact ⟨h1, h2, h3⟩
          · split
            · exact ⟨h1, h2, by intro g hg; injection hg with hg2; rw [← hg2]; exact hfns⟩
            · exact ⟨h1, h2, h3⟩

theorem extract_foldl_inv (lines : List String) (st : ExtractState)
    (h : ExtractInv st) : ExtractInv (lines.foldl extractLine st) := by
  induction lines generalizing st with
  | nil => exact h
  | cons l rest ih => exact ih _ (extractLine_inv l h)

theorem extractFeatures_nodup_keys (planText : String) :
    (dictKeys (extractFeaturesFromPlan planText)).Nodup := by
  unfold extractFeaturesFromPlan
  apply extractFlush_nodup
  apply extract_foldl_inv
  refine ⟨List.nodup_nil, ?_, ?_⟩
  · intro pr hpr
    simp at hpr
  · intro f hf
    simp at hf

theorem extractFeatures_status (planText : String) :
    ∀ pr ∈ extractFeaturesFromPlan planText, pr.2.status = "not_started" := by
  unfold extractFeaturesFromPlan
  apply extractFlush_status
  apply extract_foldl_inv
  refine ⟨List.nodup_nil, ?_, ?_⟩
  · intro pr hpr
    simp at hpr
  · intro f hf
    simp at hf

end ExtractorLemmas

/-! ### Invariant transfer helpers -/

theorem planInv_of_eq_parts {p q : Plan} (h : PlanInv p)
    (hf : q.features = p.features)
    (hpend : q.pendingFeatures = p.pendingFeatures)
    (hact : q.activeFeatures = p.activeFeatures)
    (hcomp : q.completedFeatures = p.completedFeatures) : PlanInv q := by
  unfold PlanInv NodupLists FeaturePlacement at *
  rw [hf, hpend, hact, hcomp]
  exact h

theorem completionInv_of_eq_parts {p q : Plan} (h : CompletionInv p)
    (hf : q.features = p.features)
    (hcomp : q.completedFeatures = p.completedFeatures)
    (hst : q.status = p.status) : CompletionInv q := by
  unfold CompletionInv at *
  rw [hf, hcomp, hst]
  exact h

/-! ### create_plan establishes the invariants -/

theorem create_plan_planInv (projectName requirements planText : String)
    (now : Nat) : PlanInv (create_plan projectName requirements planText now) := by
  have hN := extractFeatures_nodup_keys planText
  have hS := extractFeatures_status planText
  refine ⟨hN, ⟨hN, List.nodup_nil, List.nodup_nil⟩, fun x hx => hx, ?_, ?_, ?_⟩
  · intro x hx
    simp [create_plan] at hx
  · intro x hx
    simp [create_plan] at hx
  · intro n f hf
    left
    refine ⟨hS _ (dictGet_mem hf), dictGet_mem_keys hf, ?_, ?_⟩
    · simp [create_plan]
    · simp [create_plan]

theorem create_plan_completionInv (projectName requirements planText : String)
    (now : Nat) (hne : extractFeaturesFromPlan planText ≠ []) :
    CompletionInv (create_plan projectName requirements planText now) := by
  have hN := extractFeatures_nodup_keys planText
  refine ⟨hN, List.nodup_nil, ?_, ?_⟩
  · intro x hx
    simp [create_plan] at hx
  · constructor
    · intro hs
      exact absurd hs (by simp [create_plan])
    · intro hlen
      exfalso
      have hlen0 : (extractFeaturesFromPlan planText).length = 0 := by
        have hc : (create_plan projectName requirements planText now).completedFeatures = [] := rfl
        have hfeat : (create_plan projectName requirements planText now).features =
            extractFeaturesFromPlan planText := rfl
        rw [hc, hfeat] at hlen
        simpa using hlen.symm
      exact hne (List.length_eq_zero.mp hlen0)

/-! ### start_feature preserves the placement invariant -/

theorem start_feature_planInv {now : Nat} {p p2 : Plan} {n : String}
    (h : PlanInv p) (hok : start_feature now p n = .ok p2) : PlanInv p2 := by
  obtain ⟨hK, ⟨hPn, hAn, hCn⟩, hPs, hAs, hCs, hPl⟩ := h
  unfold start_feature at hok
  cases hget : dictGet p.features n with
  | none => rw [hget] at hok; simp at hok
  | some f =>
    rw [hget] at hok
    dsimp only at hok
    by_cases hA : n ∈ p.activeFeatures
    · rw [if_pos hA] at hok; simp at hok
    · rw [if_neg hA] at hok
      by_cases hC : n ∈ p.completedFeatures
      · rw [if_pos hC] at hok; simp at hok
      · rw [if_neg hC] at hok
        cases hdep : f.dependencies.find? (fun dep => dep ∉ p.completedFeatures) with
        | some d => rw [hdep] at hok; simp at hok
        | none =>
          rw [hdep] at hok
          simp only [Except.ok.injEq] at hok
          subst hok
          have hkmem : n ∈ dictKeys p.features := dictGet_mem_keys hget
          have hplace := hPl n f hget
          have hpmem : n ∈ p.pendingFeatures := by
            rcases hplace with ⟨_, hp1, _, _⟩ | ⟨_, _, ha, _⟩ | ⟨_, _, _, hc⟩
            · exact hp1
            · exact absurd ha hA
            · exact absurd hc hC
          have hkeys2 : dictKeys (dictSet p.features n
              { f with status := "in_progress", startedAt := some now }) =
              dictKeys p.features := dictKeys_dictSet_of_mem _ hkmem
          unfold PlanInv NodupLists FeaturePlacement
          dsimp only
          refine ⟨?_, ⟨?_, ?_, ?_⟩, ?_, ?_, ?_, ?_⟩
          · rw [hkeys2]; exact hK
          · exact pyListRemoveIfMem_nodup n hPn
          · simp [List.nodup_append, hAn, hA]
          · exact hCn
          · rw [hkeys2]
            intro x hx
            exact hPs (pyListRemoveIfMem_subset _ _ hx)
          · rw [hkeys2]
            intro x hx
            rcases List.mem_append.mp hx with hx1 | hx1
            · exact hAs hx1
            · simp at hx1
              rw [hx1]
              exact hkmem
          · rw [hkeys2]
            exact hCs
          · intro m g hg
            by_cases hmn : m = n
            · subst hmn
              rw [dictGet_dictSet_self] at hg
              simp only [Option.some.injEq] at hg
              subst hg
              right; left
              refine ⟨rfl, self_not_mem_pyListRemoveIfMem hPn, ?_, hC⟩
              simp
            · rw [dictGet_dictSet_ne _ n m _ hmn] at hg
              have hold := hPl m g hg
              rcases hold with ⟨hs, h1, h2, h3⟩ | ⟨hs, h1, h2, h3⟩ | ⟨hs, h1, h2, h3⟩
              · left
                refine ⟨hs, (mem_pyListRemoveIfMem_of_ne hmn).mpr h1, ?_, h3⟩
                simp [hmn, h2]
              · right; left
                refine ⟨hs, ?_, by simp [h2], h3⟩
                intro hx
                exact h1 ((mem_pyListRemoveIfMem_of_ne hmn).mp hx)
              · right; right
                refine ⟨hs, ?_, ?_, h3⟩
                · intro hx
                  exact h1 ((mem_pyListRemoveIfMem_of_ne hmn).mp hx)
                · simp [hmn, h2]

/-! ### complete_feature preserves the placement invariant when the
feature is active -/

theorem complete_feature_planInv {now : Nat} {p p2 : Plan} {n : String}
    (h : PlanInv p) (hA : n ∈ p.activeFeatures)
    (hok : complete_feature now p n = .ok p2) : PlanInv p2 := by
  obtain ⟨hK, ⟨hPn, hAn, hCn⟩, hPs, hAs, hCs, hPl⟩ := h
  unfold complete_feature at hok
  cases hget : dictGet p.features n with
  | none => rw [hget] at hok; simp at hok
  | some f =>
    rw [hget] at hok
    dsimp only at hok
    by_cases hC : n ∈ p.completedFeatures
    · rw [if_pos hC] at hok; simp at hok
    · rw [if_neg hC] at hok
      simp only [Except.ok.injEq] at hok
      subst hok
      have hkmem := dictGet_mem_keys hget
      have hplace := hPl n f hget
      have hnp : n ∉ p.pendingFeatures := by
        rcases hplace with ⟨_, _, ha, _⟩ | ⟨_, hp1, _, _⟩ | ⟨_, hp1, _, _⟩
        · exact absurd hA ha
        · exact hp1
        · exact hp1
      have hkeys2 : dictKeys (dictSet p.features n
          { f with status := "completed", completedAt := some now }) =
          dictKeys p.features := dictKeys_dictSet_of_mem _ hkmem
      unfold PlanInv NodupLists FeaturePlacement
      dsimp only
      refine ⟨?_, ⟨?_, ?_, ?_⟩, ?_, ?_, ?_, ?_⟩
      · rw [hkeys2]; exact hK
      · exact hPn
      · exact pyListRemoveIfMem_nodup n hAn
      · simp [List.nodup_append, hCn, hC]
      · rw [hkeys2]; exact hPs
      · rw [hkeys2]
        intro x hx
        exact hAs (pyListRemoveIfMem_subset _ _ hx)
      · rw [hkeys2]
        intro x hx
        rcases List.mem_append.mp hx with hx1 | hx1
        · exact hCs hx1
        · simp at hx1
          rw [hx1]
          exact hkmem
      · intro m g hg
        by_cases hmn : m = n
        · subst hmn
          rw [dictGet_dictSet_self] at hg
          simp only [Option.some.injEq] at hg
          subst hg
          right; right
          exact ⟨rfl, hnp, self_not_mem_pyListRemoveIfMem hAn, by simp⟩
        · rw [dictGet_dictSet_ne _ n m _ hmn] at hg
          have hold := hPl m g hg
          rcases hold with ⟨hs, h1, h2, h3⟩ | ⟨hs, h1, h2, h3⟩ | ⟨hs, h1, h2, h3⟩
          · left
            refine ⟨hs, h1, ?_, ?_⟩
            · intro hx
              exact h2 (pyListRemoveIfMem_subset _ _ hx)
            · simp [List.mem_append, hmn, h3]
          · right; left
            refine ⟨hs, h1, (mem_pyListRemoveIfMem_of_ne hmn).mpr h2, ?_⟩
            simp [List.mem_append, hmn, h3]
          · right; right
            refine ⟨hs, h1, ?_, ?_⟩
            · intro hx
              exact h2 (pyListRemoveIfMem_subset _ _ hx)
            · simp [List.mem_append, h3]

/-! ### update_feature_status preserves the placement invariant for the
three list-managed statuses -/

theorem not_mem_pyListRemoveIfMem_of_not_mem {l : List String} {m n : String}
    (h : m ∉ l) : m ∉ pyListRemoveIfMem l n :=
  fun hx => h (pyListRemoveIfMem_subset l n hx)

theorem planInv_set_updatedAt {p : Plan} (t : Nat) (h : PlanInv p) :
    PlanInv { p with updatedAt := t } :=
  planInv_of_eq_parts h rfl rfl rfl rfl

theorem planInv_status_fixup {p : Plan} (c1 c2 : Prop) [Decidable c1]
    [Decidable c2] (h : PlanInv p) :
    PlanInv (if c1 then { p with status := "completed" }
      else if c2 then { p with status := "in_progress" } else p) := by
  split
  · exact planInv_of_eq_parts h rfl rfl rfl rfl
  · split
    · exact planInv_of_eq_parts h rfl rfl rfl rfl
    · exact h

theorem update_feature_status_planInv {now : Nat} {p p2 : Plan} {n s : String}
    (h : PlanInv p)
    (hs : s = "not_started" ∨ s = "in_progress" ∨ s = "completed")
    (hok : update_feature_status now p n s = .ok p2) : PlanInv p2 := by
  obtain ⟨hK, ⟨hPn, hAn, hCn⟩, hPs, hAs, hCs, hPl⟩ := h
  unfold update_feature_status at hok
  cases hget : dictGet p.features n with
  | none => rw [hget] at hok; simp at hok
  | some f =>
    rw [hget] at hok
    dsimp only at hok
    simp only [Except.ok.injEq] at hok
    subst hok
    have hkmem := dictGet_mem_keys hget
    refine planInv_status_fixup _ _ (planInv_set_updatedAt _ ?_)
    split
    · rename_i hc1
      obtain ⟨hseq, hC⟩ := hc1
      have hkeys2 : dictKeys (dictSet p.features n
          { f with status := s, completedAt := some now }) = dictKeys p.features :=
        dictKeys_dictSet_of_mem _ hkmem
      unfold PlanInv NodupLists FeaturePlacement
      dsimp only
      refine ⟨?_, ⟨?_, ?_, ?_⟩, ?_, ?_, ?_, ?_⟩
      · rw [hkeys2]; exact hK
      · exact pyListRemoveIfMem_nodup n hPn
      · exact pyListRemoveIfMem_nodup n hAn
      · simp [List.nodup_append, hCn, hC]
      · rw [hkeys2]
        intro x hx
        exact hPs (pyListRemoveIfMem_subset _ _ hx)
      · rw [hkeys2]
        intro x hx
        exact hAs (pyListRemoveIfMem_subset _ _ hx)
      · rw [hkeys2]
        intro x hx
        rcases List.mem_append.mp hx with hx1 | hx1
        · exact hCs hx1
        · simp at hx1
          rw [hx1]
          exact hkmem
      · intro m g hg
        by_cases hmn : m = n
        · subst hmn
          rw [dictGet_dictSet_self] at hg
          simp only [Option.some.injEq] at hg
          subst hg
          right; right
          refine ⟨hseq, self_not_mem_pyListRemoveIfMem hPn,
            self_not_mem_pyListRemoveIfMem hAn, by simp⟩
        · rw [dictGet_dictSet_ne _ n m _ hmn] at hg
          rcases hPl m g hg with ⟨hs1, h1, h2, h3⟩ | ⟨hs1, h1, h2, h3⟩ | ⟨hs1, h1, h2, h3⟩
          · left
            exact ⟨hs1, (mem_pyListRemoveIfMem_of_ne hmn).mpr h1,
              not_mem_pyListRemoveIfMem_of_not_mem h2,
              by simp [List.mem_append, hmn, h3]⟩
          · right; left
            exact ⟨hs1, not_mem_pyListRemoveIfMem_of_not_mem h1,
              (mem_pyListRemoveIfMem_of_ne hmn).mpr h2,
              by simp [List.mem_append, hmn, h3]⟩
          · right; right
            exact ⟨hs1, not_mem_pyListRemoveIfMem_of_not_mem h1,
              not_mem_pyListRemoveIfMem_of_not_mem h2,
              by simp [List.mem_append, h3]⟩
    · split
      · rename_i hc1 hc2
        obtain ⟨hseq, hA⟩ := hc2
        have hkeys2 : dictKeys (dictSet p.features n
            { f with status := s, startedAt := some now }) = dictKeys p.features :=
          dictKeys_dictSet_of_mem _ hkmem
        unfold PlanInv NodupLists FeaturePlacement
        dsimp only
        refine ⟨?_, ⟨?_, ?_, ?_⟩, ?_, ?_, ?_, ?_⟩
        · rw [hkeys2]; exact hK
        · exact pyListRemoveIfMem_nodup n hPn
        · simp [List.nodup_append, hAn, hA]
        · exact pyListRemoveIfMem_nodup n hCn
        · rw [hkeys2]
          intro x hx
          exact hPs (pyListRemoveIfMem_subset _ _ hx)
        · rw [hkeys2]
          intro x hx
          rcases List.mem_append.mp hx with hx1 | hx1
          · exact hAs hx1
          · simp at hx1
            rw [hx1]
            exact hkmem
        · rw [hkeys2]
          intro x hx
          exact hCs (pyListRemoveIfMem_subset _ _ hx)
        · intro m g hg
          by_cases hmn : m = n
          · subst hmn
            rw [dictGet_dictSet_self] at hg
            simp only [Option.some.injEq] at hg
            subst hg
            right; left
            refine ⟨hseq, self_not_mem_pyListRemoveIfMem hPn, by simp,
              self_not_mem_pyListRemoveIfMem hCn⟩
          · rw [dictGet_dictSet_ne _ n m _ hmn] at hg
            rcases hPl m g hg with ⟨hs1, h1, h2, h3⟩ | ⟨hs1, h1, h2, h3⟩ | ⟨hs1, h1, h2, h3⟩
            · left
              exact ⟨hs1, (mem_pyListRemoveIfMem_of_ne hmn).mpr h1,
                by simp [List.mem_append, hmn, h2],
                not_mem_pyListRemoveIfMem_of_not_mem h3⟩
            · right; left
              exact ⟨hs1, not_mem_pyListRemoveIfMem_of_not_mem h1,
                by simp [List.mem_append, h2],
                not_mem_pyListRemoveIfMem_of_not_mem h3⟩
            · right; right
              exact ⟨hs1, not_mem_pyListRemoveIfMem_of_not_mem h1,
                by simp [List.mem_append, hmn, h2],
                (mem_pyListRemoveIfMem_of_ne hmn).mpr h3⟩
      · split
        · rename_i hc1 hc2 hc3
          obtain ⟨hseq, hP⟩ := hc3
          have hkeys2 : dictKeys (dictSet p.features n
              { f with status := s }) = dictKeys p.features :=
            dictKeys_dictSet_of_mem _ hkmem
          unfold PlanInv NodupLists FeaturePlacement
          dsimp only
          refine ⟨?_, ⟨?_, ?_, ?_⟩, ?_, ?_, ?_, ?_⟩
          · rw [hkeys2]; exact hK
          · simp [List.nodup_append, hPn, hP]
          · exact pyListRemoveIfMem_nodup n hAn
          · exact pyListRemoveIfMem_nodup n hCn
          · rw [hkeys2]
            intro x hx
            rcases List.mem_append.mp hx with hx1 | hx1
            · exact hPs hx1
            · simp at hx1
              rw [hx1]
              exact hkmem
          · rw [hkeys2]
            intro x hx
            exact hAs (pyListRemoveIfMem_subset _ _ hx)
          · rw [hkeys2]
            intro x hx
            exact hCs (pyListRemoveIfMem_subset _ _ hx)
          · intro m g hg
            by_cases hmn : m = n
            · subst hmn
              rw [dictGet_dictSet_self] at hg
              simp only [Option.some.injEq] at hg
              subst hg
              left
              refine ⟨hseq, by simp, self_not_mem_pyListRemoveIfMem hAn,
                self_not_mem_pyListRemoveIfMem hCn⟩
            · rw [dictGet_dictSet_ne _ n m _ hmn] at hg
              rcases hPl m g hg with ⟨hs1, h1, h2, h3⟩ | ⟨hs1, h1, h2, h3⟩ | ⟨hs1, h1, h2, h3⟩
              · left
                exact ⟨hs1, by simp [List.mem_append, h1],
                  not_mem_pyListRemoveIfMem_of_not_mem h2,
                  not_mem_pyListRemoveIfMem_of_not_mem h3⟩
              · right; left
                exact ⟨hs1, by simp [List.mem_append, hmn, h1],
                  (mem_pyListRemoveIfMem_of_ne hmn).mpr h2,
                  not_mem_pyListRemoveIfMem_of_not_mem h3⟩
              · right; right
                exact ⟨hs1, by simp [List.mem_append, hmn, h1],
                  not_mem_pyListRemoveIfMem_of_not_mem h2,
                  (mem_pyListRemoveIfMem_of_ne hmn).mpr h3⟩
        · rename_i hc1 hc2 hc3
          have hkeys2 : dictKeys (dictSet p.features n
              { f with status := s }) = dictKeys p.features :=
            dictKeys_dictSet_of_mem _ hkmem
          have hnmem : (s = "not_started" ∧ n ∈ p.pendingFeatures) ∨
              (s = "in_progress" ∧ n ∈ p.activeFeatures) ∨
              (s = "completed" ∧ n ∈ p.completedFeatures) := by
            rcases hs with rfl | rfl | rfl
            · left
              refine ⟨rfl, ?_⟩
              by_contra hx
              exact hc3 ⟨rfl, hx⟩
            · right; left
              refine ⟨rfl, ?_⟩
              by_contra hx
              exact hc2 ⟨rfl, hx⟩
            · right; right
              refine ⟨rfl, ?_⟩
              by_contra hx
              exact hc1 ⟨rfl, hx⟩
          unfold PlanInv NodupLists FeaturePlacement
          dsimp only
          refine ⟨?_, ⟨hPn, hAn, hCn⟩, ?_, ?_, ?_, ?_⟩
          · rw [hkeys2]; exact hK
          · rw [hkeys2]; exact hPs
          · rw [hkeys2]; exact hAs
          · rw [hkeys2]; exact hCs
          · intro m g hg
            by_cases hmn : m = n
            · subst hmn
              rw [dictGet_dictSet_self] at hg
              simp only [Option.some.injEq] at hg
              subst hg
              have hplace := hPl _ f hget
              rcases hnmem with ⟨hseq, hmem⟩ | ⟨hseq, hmem⟩ | ⟨hseq, hmem⟩
              · left
                refine ⟨hseq, hmem, ?_, ?_⟩
                · rcases hplace with ⟨_, _, h2, _⟩ | ⟨_, h1, _, _⟩ | ⟨_, h1, _, _⟩
                  · exact h2
                  · exact absurd hmem h1
                  · exact absurd hmem h1
                · rcases hplace with ⟨_, _, _, h3⟩ | ⟨_, h1, _, _⟩ | ⟨_, h1, _, _⟩
                  · exact h3
                  · exact absurd hmem h1
                  · exact absurd hmem h1
              · right; left
                refine ⟨hseq, ?_, hmem, ?_⟩
                · rcases hplace with ⟨_, _, h2, _⟩ | ⟨_, h1, _, _⟩ | ⟨_, _, h2, _⟩
                  · exact absurd hmem h2
                  · exact h1
                  · exact absurd hmem h2
                · rcases hplace with ⟨_, _, h2, _⟩ | ⟨_, _, _, h3⟩ | ⟨_, _, h2, _⟩
                  · exact absurd hmem h2
                  · exact h3
                  · exact absurd hmem h2
              · right; right
                refine ⟨hseq, ?_, ?_, hmem⟩
                · rcases hplace with ⟨_, _, _, h3⟩ | ⟨_, _, _, h3⟩ | ⟨_, h1, _, _⟩
                  · exact absurd hmem h3
                  · exact absurd hmem h3
                  · exact h1
                · rcases hplace with ⟨_, _, _, h3⟩ | ⟨_, _, _, h3⟩ | ⟨_, _, h2, _⟩
                  · exact absurd hmem h3
                  · exact absurd hmem h3
                  · exact h2
            · rw [dictGet_dictSet_ne _ n m _ hmn] at hg
              exact hPl m g hg

/-! ### update_step_status preserves the placement invariant -/

theorem planInv_set_feature_same_status {p : Plan} {n : String} {f g : Feature}
    (h : PlanInv p) (hget : dictGet p.features n = some f)
    (hst : g.status = f.status) :
    PlanInv { p with features := dictSet p.features n g } := by
  obtain ⟨hK, hNL, hPs, hAs, hCs, hPl⟩ := h
  have hkmem := dictGet_mem_keys hget
  have hkeys2 := dictKeys_dictSet_of_mem g hkmem
  refine ⟨?_, hNL, ?_, ?_, ?_, ?_⟩
  · show (dictKeys (dictSet p.features n g)).Nodup
    rw [hkeys2]
    exact hK
  · show p.pendingFeatures ⊆ dictKeys (dictSet p.features n g)
    rw [hkeys2]
    exact hPs
  · show p.activeFeatures ⊆ dictKeys (dictSet p.features n g)
    rw [hkeys2]
    exact hAs
  · show p.completedFeatures ⊆ dictKeys (dictSet p.features n g)
    rw [hkeys2]
    exact hCs
  · intro m gg hg
    by_cases hmn : m = n
    · subst hmn
      rw [dictGet_dictSet_self] at hg
      simp only [Option.some.injEq] at hg
      subst hg
      rcases hPl _ f hget with ⟨hs1, h1, h2, h3⟩ | ⟨hs1, h1, h2, h3⟩ | ⟨hs1, h1, h2, h3⟩
      · exact Or.inl ⟨hst.trans hs1, h1, h2, h3⟩
      · exact Or.inr (Or.inl ⟨hst.trans hs1, h1, h2, h3⟩)
      · exact Or.inr (Or.inr ⟨hst.trans hs1, h1, h2, h3⟩)
    · rw [dictGet_dictSet_ne _ n m _ hmn] at hg
      exact hPl m gg hg

theorem update_step_status_planInv {now : Nat} {p p2 : Plan} {n : String}
    {i : Int} {s : String} (h : PlanInv p)
    (hok : update_step_status now p n i s = .ok p2) : PlanInv p2 := by
  unfold update_step_status at hok
  cases hget : dictGet p.features n with
  | none => rw [hget] at hok; simp at hok
  | some f =>
    rw [hget] at hok
    dsimp only at hok
    split at hok
    · simp at hok
    · split at hok
      · split at hok
        · rename_i q heq
          simp only [Except.ok.injEq] at hok
          subst hok
          refine update_feature_status_planInv ?_ (Or.inr (Or.inr rfl)) heq
          exact planInv_set_feature_same_status h hget rfl
        · simp only [Except.ok.injEq] at hok
          subst hok
          exact planInv_set_feature_same_status h hget rfl
      · simp only [Except.ok.injEq] at hok
        subst hok
        exact planInv_set_feature_same_status h hget rfl

/-! ### Every operation keeps the three lists duplicate-free, with no
guard at all: each append in the source is protected by a membership
test or a preceding already-present error return -/

theorem start_feature_nodupLists {now : Nat} {p p2 : Plan} {n : String}
    (h : NodupLists p) (hok : start_feature now p n = .ok p2) : NodupLists p2 := by
  obtain ⟨hPn, hAn, hCn⟩ := h
  unfold start_feature at hok
  cases hget : dictGet p.features n with
  | none => rw [hget] at hok; simp at hok
  | some f =>
    rw [hget] at hok
    dsimp only at hok
    by_cases hA : n ∈ p.activeFeatures
    · rw [if_pos hA] at hok; simp at hok
    · rw [if_neg hA] at hok
      by_cases hC : n ∈ p.completedFeatures
      · rw [if_pos hC] at hok; simp at hok
      · rw [if_neg hC] at hok
        cases hdep : f.dependencies.find? (fun dep => dep ∉ p.completedFeatures) with
        | some d => rw [hdep] at hok; simp at hok
        | none =>
          rw [hdep] at hok
          simp only [Except.ok.injEq] at hok
          subst hok
          exact ⟨pyListRemoveIfMem_nodup n hPn,
            by simp [List.nodup_append, hAn, hA], hCn⟩

theorem complete_feature_nodupLists {now : Nat} {p p2 : Plan} {n : String}
    (h : NodupLists p) (hok : complete_feature now p n = .ok p2) : NodupLists p2 := by
  obtain ⟨hPn, hAn, hCn⟩ := h
  unfold complete_feature at hok
  cases hget : dictGet p.features n with
  | none => rw [hget] at hok; simp at hok
  | some f =>
    rw [hget] at hok
    dsimp only at hok
    by_cases hC : n ∈ p.completedFeatures
    · rw [if_pos hC] at hok; simp at hok
    · rw [if_neg hC] at hok
      simp only [Except.ok.injEq] at hok
      subst hok
      exact ⟨hPn, pyListRemoveIfMem_nodup n hAn,
        by simp [List.nodup_append, hCn, hC]⟩

theorem update_feature_status_nodupLists {now : Nat} {p p2 : Plan} {n s : String}
    (h : NodupLists p) (hok : update_feature_status now p n s = .ok p2) :
    NodupLists p2 := by
  obtain ⟨hPn, hAn, hCn⟩ := h
  unfold update_feature_status at hok
  cases hget : dictGet p.features n with
  | none => rw [hget] at hok; simp at hok
  | some f =>
    rw [hget] at hok
    dsimp only at hok
    simp only [Except.ok.injEq] at hok
    subst hok
    by_cases hc1 : s = "completed" ∧ n ∉ p.completedFeatures
    · rw [if_pos hc1]
      have hE : NodupLists { p with
          activeFeatures := pyListRemoveIfMem p.activeFeatures n
          pendingFeatures := pyListRemoveIfMem p.pendingFeatures n
          completedFeatures := p.completedFeatures ++ [n]
          features := dictSet p.features n
            { f with status := s, completedAt := some now }
          updatedAt := now } :=
        ⟨pyListRemoveIfMem_nodup n hPn, pyListRemoveIfMem_nodup n hAn,
          by simp [List.nodup_append, hCn, hc1.2]⟩
      split
      · exact hE
      · split
        · exact hE
        · exact hE
    · rw [if_neg hc1]
      by_cases hc2 : s = "in_progress" ∧ n ∉ p.activeFeatures
      · rw [if_pos hc2]
        have hE : NodupLists { p with
            pendingFeatures := pyListRemoveIfMem p.pendingFeatures n
            completedFeatures := pyListRemoveIfMem p.completedFeatures n
            activeFeatures := p.activeFeatures ++ [n]
            features := dictSet p.features n
              { f with status := s, startedAt := some now }
            updatedAt := now } :=
          ⟨pyListRemoveIfMem_nodup n hPn,
            by simp [List.nodup_append, hAn, hc2.2],
            pyListRemoveIfMem_nodup n hCn⟩
        split
        · exact hE
        · split
          · exact hE
          · exact hE
      · rw [if_neg hc2]
        by_cases hc3 : s = "not_started" ∧ n ∉ p.pendingFeatures
        · rw [if_pos hc3]
          have hE : NodupLists { p with
              activeFeatures := pyListRemoveIfMem p.activeFeatures n
              completedFeatures := pyListRemoveIfMem p.completedFeatures n
              pendingFeatures := p.pendingFeatures ++ [n]
              features := dictSet p.features n { f with status := s }
              updatedAt := now } :=
            ⟨by simp [List.nodup_append, hPn, hc3.2],
              pyListRemoveIfMem_nodup n hAn,
              pyListRemoveIfMem_nodup n hCn⟩
          split
          · exact hE
          · split
            · exact hE
            · exact hE
        · rw [if_neg hc3]
          have hE : NodupLists { p with
              features := dictSet p.features n { f with status := s }
              updatedAt := now } := ⟨hPn, hAn, hCn⟩
          split
          · exact hE
          · split
            · exact hE
            · exact hE

theorem update_step_status_nodupLists {now : Nat} {p p2 : Plan} {n : String}
    {i : Int} {s : String} (h : NodupLists p)
    (hok : update_step_status now p n i s = .ok p2) : NodupLists p2 := by
  unfold update_step_status at hok
  cases hget : dictGet p.features n with
  | none => rw [hget] at hok; simp at hok
  | some f =>
    rw [hget] at hok
    dsimp only at hok
    split at hok
    · simp at hok
    · split at hok
      · split at hok
        · rename_i q heq
          simp only [Except.ok.injEq] at hok
          subst hok
          refine update_feature_status_nodupLists ?_ heq
          exact h
        · simp only [Except.ok.injEq] at hok
          subst hok
          exact h
      · simp only [Except.ok.injEq] at hok
        subst hok
        exact h

theorem applyOp_nodupLists (now : Nat) (op : Op) {p : Plan}
    (h : NodupLists p) : NodupLists (applyOp now p op) := by
  cases op with
  | startF n =>
    unfold applyOp
    dsimp only
    split
    · rename_i q heq
      exact start_feature_nodupLists h heq
    · exact h
  | completeF n =>
    unfold applyOp
    dsimp only
    split
    · rename_i q heq
      exact complete_feature_nodupLists h heq
    · exact h
  | updateF n s =>
    unfold applyOp
    dsimp only
    split
    · rename_i q heq
      exact update_feature_status_nodupLists h heq
    · exact h
  | updateStep n i s =>
    unfold applyOp
    dsimp only
    split
    · rename_i q heq
      exact update_step_status_nodupLists h heq
    · exact h

theorem runOps_nodupLists (ops : List (Nat × Op)) {p : Plan}
    (h : NodupLists p) : NodupLists (runOps p ops) := by
  induction ops generalizing p with
  | nil => exact h
  | cons hd tl ih => exact ih (applyOp_nodupLists hd.1 hd.2 h)

theorem create_plan_nodupLists (projectName requirements planText : String)
    (now : Nat) : NodupLists (create_plan projectName requirements planText now) :=
  ⟨extractFeatures_nodup_keys planText, List.nodup_nil, List.nodup_nil⟩

/-! ### Every operation preserves the completion biconditional -/

theorem mem_of_subset_nodup_length_eq {l1 l2 : List String} (h1 : l1.Nodup)
    (hsub : l1 ⊆ l2) (hlen : l1.length = l2.length) : ∀ x ∈ l2, x ∈ l1 := by
  obtain ⟨l, hperm, hsl⟩ := h1.subperm hsub
  have hl2 : l = l2 := hsl.eq_of_length (by rw [hperm.length_eq]; exact hlen)
  intro x hx
  exact hperm.subset (hl2 ▸ hx)

theorem completed_length_le {p : Plan} (hCn : p.completedFeatures.Nodup)
    (hCs : p.completedFeatures ⊆ dictKeys p.features) :
    p.completedFeatures.length ≤ p.features.length := by
  have hle := (hCn.subperm hCs).length_le
  simpa [dictKeys] using hle

theorem mem_completed_of_full {p : Plan} (hCn : p.completedFeatures.Nodup)
    (hCs : p.completedFeatures ⊆ dictKeys p.features)
    (hlen : p.completedFeatures.length = p.features.length) {n : String}
    (hn : n ∈ dictKeys p.features) : n ∈ p.completedFeatures :=
  mem_of_subset_nodup_length_eq hCn hCs (by simpa [dictKeys] using hlen) n hn

theorem pyListRemoveIfMem_length_of_mem {l : List String} {n : String}
    (h : n ∈ l) : (pyListRemoveIfMem l n).length = l.length - 1 := by
  unfold pyListRemoveIfMem
  rw [if_pos h]
  exact List.length_erase_of_mem h

theorem pyListRemoveIfMem_of_not_mem {l : List String} {n : String}
    (h : n ∉ l) : pyListRemoveIfMem l n = l := by
  unfold pyListRemoveIfMem
  exact if_neg h

theorem start_feature_completionInv {now : Nat} {p p2 : Plan} {n : String}
    (h : CompletionInv p) (hok : start_feature now p n = .ok p2) :
    CompletionInv p2 := by
  obtain ⟨hK, hCn, hCs, hBi⟩ := h
  unfold start_feature at hok
  cases hget : dictGet p.features n with
  | none => rw [hget] at hok; simp at hok
  | some f =>
    rw [hget] at hok
    dsimp only at hok
    by_cases hA : n ∈ p.activeFeatures
    · rw [if_pos hA] at hok; simp at hok
    · rw [if_neg hA] at hok
      by_cases hC : n ∈ p.completedFeatures
      · rw [if_pos hC] at hok; simp at hok
      · rw [if_neg hC] at hok
        cases hdep : f.dependencies.find? (fun dep => dep ∉ p.completedFeatures) with
        | some d => rw [hdep] at hok; simp at hok
        | none =>
          rw [hdep] at hok
          simp only [Except.ok.injEq] at hok
          subst hok
          have hkmem := dictGet_mem_keys hget
          unfold CompletionInv
          dsimp only
          refine ⟨?_, hCn, ?_, ?_⟩
          · rw [dictKeys_dictSet_of_mem _ hkmem]; exact hK
          · rw [dictKeys_dictSet_of_mem _ hkmem]; exact hCs
          · rw [length_dictSet_of_mem _ hkmem]; exact hBi

theorem complete_feature_completionInv {now : Nat} {p p2 : Plan} {n : String}
    (h : CompletionInv p) (hok : complete_feature now p n = .ok p2) :
    CompletionInv p2 := by
  obtain ⟨hK, hCn, hCs, hBi⟩ := h
  unfold complete_feature at hok
  cases hget : dictGet p.features n with
  | none => rw [hget] at hok; simp at hok
  | some f =>
    rw [hget] at hok
    dsimp only at hok
    by_cases hC : n ∈ p.completedFeatures
    · rw [if_pos hC] at hok; simp at hok
    · rw [if_neg hC] at hok
      simp only [Except.ok.injEq] at hok
      subst hok
      have hkmem := dictGet_mem_keys hget
      unfold CompletionInv
      dsimp only
      rw [dictKeys_dictSet_of_mem _ hkmem, length_dictSet_of_mem _ hkmem]
      refine ⟨hK, by simp [List.nodup_append, hCn, hC], ?_, ?_⟩
      · intro x hx
        rcases List.mem_append.mp hx with hx1 | hx1
        · exact hCs hx1
        · simp at hx1
          rw [hx1]
          exact hkmem
      · by_cases hlen : (p.completedFeatures ++ [n]).length = p.features.length
        · rw [if_pos hlen]
          simp [hlen]
        · rw [if_neg hlen]
          constructor
          · intro hst
            exfalso
            exact hC (mem_completed_of_full hCn hCs (hBi.mp hst) hkmem)
          · intro hx
            exact absurd hx hlen

theorem update_feature_status_completionInv {now : Nat} {p p2 : Plan}
    {n s : String} (h : CompletionInv p)
    (hok : update_feature_status now p n s = .ok p2) : CompletionInv p2 := by
  obtain ⟨hK, hCn, hCs, hBi⟩ := h
  unfold update_feature_status at hok
  cases hget : dictGet p.features n with
  | none => rw [hget] at hok; simp at hok
  | some f =>
    rw [hget] at hok
    dsimp only at hok
    simp only [Except.ok.injEq] at hok
    subst hok
    have hkmem := dictGet_mem_keys hget
    have hlenK := completed_length_le hCn hCs
    by_cases hc1 : s = "completed" ∧ n ∉ p.completedFeatures
    · rw [if_pos hc1]
      have hnodup2 : (p.completedFeatures ++ [n]).Nodup := by
        simp [List.nodup_append, hCn, hc1.2]
      have hsub2 : p.completedFeatures ++ [n] ⊆ dictKeys p.features := by
        intro x hx
        rcases List.mem_append.mp hx with hx1 | hx1
        · exact hCs hx1
        · simp at hx1
          rw [hx1]
          exact hkmem
      split
      · rename_i hA
        unfold CompletionInv
        dsimp only
        rw [dictKeys_dictSet_of_mem _ hkmem, length_dictSet_of_mem _ hkmem]
        refine ⟨hK, hnodup2, hsub2, ?_⟩
        dsimp only at hA
        rw [length_dictSet_of_mem _ hkmem] at hA
        simp [hA.2]
      · split
        · rename_i hA hB
          unfold CompletionInv
          dsimp only
          rw [dictKeys_dictSet_of_mem _ hkmem, length_dictSet_of_mem _ hkmem]
          dsimp only at hB
          rw [length_dictSet_of_mem _ hkmem] at hB
          refine ⟨hK, hnodup2, hsub2, ?_⟩
          constructor
          · intro hx
            exact absurd hx (by decide)
          · intro hx
            exfalso
            omega
        · rename_i hA hB
          unfold CompletionInv
          dsimp only
          rw [dictKeys_dictSet_of_mem _ hkmem, length_dictSet_of_mem _ hkmem]
          dsimp only at hA
          rw [length_dictSet_of_mem _ hkmem] at hA
          refine ⟨hK, hnodup2, hsub2, ?_⟩
          constructor
          · intro hst
            exfalso
            exact hc1.2 (mem_completed_of_full hCn hCs (hBi.mp hst) hkmem)
          · intro hx
            exact absurd ⟨hc1.1, hx⟩ hA
    · rw [if_neg hc1]
      by_cases hc2 : s = "in_progress" ∧ n ∉ p.activeFeatures
      · rw [if_pos hc2]
        have hnodup2 := pyListRemoveIfMem_nodup n hCn
        have hsub2 : pyListRemoveIfMem p.completedFeatures n ⊆ dictKeys p.features :=
          fun x hx => hCs (pyListRemoveIfMem_subset _ _ hx)
        have hlen2 := pyListRemoveIfMem_length_le p.completedFeatures n
        split
        · rename_i hA
          exact absurd hA.1 (by rw [hc2.1]; decide)
        · split
          · rename_i hA hB
            unfold CompletionInv
            dsimp only
            rw [dictKeys_dictSet_of_mem _ hkmem, length_dictSet_of_mem _ hkmem]
            dsimp only at hB
            rw [length_dictSet_of_mem _ hkmem] at hB
            refine ⟨hK, hnodup2, hsub2, ?_⟩
            constructor
            · intro hx
              exact absurd hx (by decide)
            · intro hx
              exfalso
              omega
          · rename_i hA hB
            unfold CompletionInv
            dsimp only
            rw [dictKeys_dictSet_of_mem _ hkmem, length_dictSet_of_mem _ hkmem]
            dsimp only at hB
            rw [length_dictSet_of_mem _ hkmem] at hB
            refine ⟨hK, hnodup2, hsub2, ?_⟩
            constructor
            · intro hst
              have hgeL : ¬ ((pyListRemoveIfMem p.completedFeatures n).length <
                  p.features.length) := fun hlt => hB ⟨hst, hlt⟩
              have hfull := hBi.mp hst
              omega
            · intro hx
              by_cases hn : n ∈ p.completedFeatures
              · exfalso
                have := pyListRemoveIfMem_length_of_mem hn
                have hpos : 0 < p.completedFeatures.length := List.length_pos.mpr
                  (fun he => by rw [he] at hn; simp at hn)
                omega
              · rw [pyListRemoveIfMem_of_not_mem hn] at hx
                exact hBi.mpr hx
      · rw [if_neg hc2]
        by_cases hc3 : s = "not_started" ∧ n ∉ p.pendingFeatures
        · rw [if_pos hc3]
          have hnodup2 := pyListRemoveIfMem_nodup n hCn
          have hsub2 : pyListRemoveIfMem p.completedFeatures n ⊆ dictKeys p.features :=
            fun x hx => hCs (pyListRemoveIfMem_subset _ _ hx)
          have hlen2 := pyListRemoveIfMem_length_le p.completedFeatures n
          split
          · rename_i hA
            exact absurd hA.1 (by rw [hc3.1]; decide)
          · split
            · rename_i hA hB
              unfold CompletionInv
              dsimp only
              rw [dictKeys_dictSet_of_mem _ hkmem, length_dictSet_of_mem _ hkmem]
              dsimp only at hB
              rw [length_dictSet_of_mem _ hkmem] at hB
              refine ⟨hK, hnodup2, hsub2, ?_⟩
              constructor
              · intro hx
                exact absurd hx (by decide)
              · intro hx
                exfalso
                omega
            · rename_i hA hB
              unfold CompletionInv
              dsimp only
              rw [dictKeys_dictSet_of_mem _ hkmem, length_dictSet_of_mem _ hkmem]
              dsimp only at hB
              rw [length_dictSet_of_mem _ hkmem] at hB
              refine ⟨hK, hnodup2, hsub2, ?_⟩
              constructor
              · intro hst
                have hgeL : ¬ ((pyListRemoveIfMem p.completedFeatures n).length <
                    p.features.length) := fun hlt => hB ⟨hst, hlt⟩
                have hfull := hBi.mp hst
                omega
              · intro hx
                by_cases hn : n ∈ p.completedFeatures
                · exfalso
                  have := pyListRemoveIfMem_length_of_mem hn
                  have hpos : 0 < p.completedFeatures.length := List.length_pos.mpr
                    (fun he => by rw [he] at hn; simp at hn)
                  omega
                · rw [pyListRemoveIfMem_of_not_mem hn] at hx
                  exact hBi.mpr hx
        · rw [if_neg hc3]
          split
          · rename_i hA
            unfold CompletionInv
            dsimp only
            rw [dictKeys_dictSet_of_mem _ hkmem, length_dictSet_of_mem _ hkmem]
            dsimp only at hA
            rw [length_dictSet_of_mem _ hkmem] at hA
            refine ⟨hK, hCn, hCs, ?_⟩
            simp [hA.2]
          · split
            · rename_i hA hB
              unfold CompletionInv
              dsimp only
              rw [dictKeys_dictSet_of_mem _ hkmem, length_dictSet_of_mem _ hkmem]
              dsimp only at hB
              rw [length_dictSet_of_mem _ hkmem] at hB
              refine ⟨hK, hCn, hCs, ?_⟩
              constructor
              · intro hx
                exact absurd hx (by decide)
              · intro hx
                exfalso
                have := hBi.mpr hx
                omega
            · unfold CompletionInv
              dsimp only
              rw [dictKeys_dictSet_of_mem _ hkmem, length_dictSet_of_mem _ hkmem]
              exact ⟨hK, hCn, hCs, hBi⟩

theorem completionInv_set_feature {p : Plan} {n : String} {f g : Feature}
    (h : CompletionInv p) (hget : dictGet p.features n = some f) :
    CompletionInv { p with features := dictSet p.features n g } := by
  obtain ⟨hK, hCn, hCs, hBi⟩ := h
  have hkmem := dictGet_mem_keys hget
  unfold CompletionInv
  dsimp only
  rw [dictKeys_dictSet_of_mem _ hkmem, length_dictSet_of_mem _ hkmem]
  exact ⟨hK, hCn, hCs, hBi⟩

theorem update_step_status_completionInv {now : Nat} {p p2 : Plan} {n : String}
    {i : Int} {s : String} (h : CompletionInv p)
    (hok : update_step_status now p n i s = .ok p2) : CompletionInv p2 := by
  unfold update_step_status at hok
  cases hget : dictGet p.features n with
  | none => rw [hget] at hok; simp at hok
  | some f =>
    rw [hget] at hok
    dsimp only at hok
    split at hok
    · simp at hok
    · split at hok
      · split at hok
        · rename_i q heq
          simp only [Except.ok.injEq] at hok
          subst hok
          refine update_feature_status_completionInv ?_ heq
          exact completionInv_set_feature h hget
        · simp only [Except.ok.injEq] at hok
          subst hok
          exact completionInv_set_feature h hget
      · simp only [Except.ok.injEq] at hok
        subst hok
        exact completionInv_set_feature h hget

theorem applyOp_completionInv (now : Nat) (op : Op) {p : Plan}
    (h : CompletionInv p) : CompletionInv (applyOp now p op) := by
  cases op with
  | startF n =>
    unfold applyOp
    dsimp only
    split
    · rename_i q heq
      exact start_feature_completionInv h heq
    · exact h
  | completeF n =>
    unfold applyOp
    dsimp only
    split
    · rename_i q heq
      exact complete_feature_completionInv h heq
    · exact h
  | updateF n s =>
    unfold applyOp
    dsimp only
    split
    · rename_i q heq
      exact update_feature_status_completionInv h heq
    · exact h
  | updateStep n i s =>
    unfold applyOp
    dsimp only
    split
    · rename_i q heq
      exact update_step_status_completionInv h heq
    · exact h

theorem runOps_completionInv (ops : List (Nat × Op)) {p : Plan}
    (h : CompletionInv p) : CompletionInv (runOps p ops) := by
  induction ops generalizing p with
  | nil => exact h
  | cons hd tl ih => exact ih (applyOp_completionInv hd.1 hd.2 h)


theorem reachSafe_planInv {p : Plan} (h : ReachSafe p) : PlanInv p := by
  induction h with
  | base projectName requirements planText now =>
    exact create_plan_planInv projectName requirements planText now
  | stepStart p now n hr ih =>
    unfold applyOp
    dsimp only
    split
    · rename_i q heq
      exact start_feature_planInv ih heq
    · exact ih
  | stepComplete p now n hr hA ih =>
    unfold applyOp
    dsimp only
    split
    · rename_i q heq
      exact complete_feature_planInv ih hA heq
    · exact ih
  | stepUpdate p now n s hr hs ih =>
    unfold applyOp
    dsimp only
    split
    · rename_i q heq
      exact update_feature_status_planInv ih hs heq
    · exact ih
  | stepUpdateStep p now n i s hr ih =>
    unfold applyOp
    dsimp only
    split
    · rename_i q heq
      exact update_step_status_planInv ih heq
    · exact ih

/-! ### Admission loop lemmas -/

/-- When branch creation raises persistently for the head of the
pending list, every iteration of the admission loop pops that head,
fails, reinserts it at position zero and retries it, so the whole loop
is a no-op. -/
theorem admitLoop_head_branch_fails (gw : Gateways) (now : Nat) (k : Nat)
    (st : AdmitState) (n : String) (rest : List String) (f : PFeature)
    (e : String)
    (hp : st.impl.pendingFeatures = n :: rest)
    (hf : dictGet st.project.features n = some f)
    (hbr : gw.createBranch st.project.gitUrl
      (branchNameOf st.project.name n) "main" = .error e) :
    admitLoop gw now k st = .ok st := by
  obtain ⟨proj, impl, prog, started⟩ := st
  obtain ⟨ia, ic, ip, im⟩ := impl
  dsimp only at hp hf hbr
  subst hp
  induction k with
  | zero => rfl
  | succ k ih =>
    unfold admitLoop
    dsimp only
    rw [hf]
    dsimp only
    rw [hbr]
    exact ih

/-- Each successful admission-loop run grows the active list by at most
the number of iterations. -/
theorem admitLoop_active_le (gw : Gateways) (now : Nat) :
    ∀ (k : Nat) (st st2 : AdmitState), admitLoop gw now k st = .ok st2 →
    st2.impl.activeFeatures.length ≤ st.impl.activeFeatures.length + k := by
  intro k
  induction k with
  | zero =>
    intro st st2 h
    unfold admitLoop at h
    simp only [Except.ok.injEq] at h
    subst h
    omega
  | succ k ih =>
    intro st st2 h
    unfold admitLoop at h
    split at h
    · simp only [Except.ok.injEq] at h
      subst h
      omega
    · rename_i n rest hp
      split at h
      · simp at h
      · rename_i f hget
        dsimp only at h
        split at h
        · rename_i e hbr
          have hle := ih _ _ h
          try dsimp only at hle
          omega
        · rename_i u hbrok
          split at h
          · rename_i e hth
            have hle := ih _ _ h
            try dsimp only at hle
            omega
          · rename_i tr hthok
            have hle := ih _ _ h
            try dsimp only at hle
            try rw [List.length_append] at hle
            try dsimp only at hle
            simp only [List.length_append, List.length_cons, List.length_nil] at hle
            omega

/-! ## Claims -/

/-- Refutation of C1 at a concrete input: start_implementation admits
feature B into the active list first (FIFO order) even though its
dependency A is not in the completed list, because the admission pass of
project_manager.py never reads the dependencies field. -/
theorem c1_counterexample :
    (dictGet c1Project.features "B").map PFeature.dependencies = some ["A"] ∧
    startedAfter (start_implementation okGateways 3 c1Project none c1Progress none) = ["B"] ∧
    "B" ∈ (implAfter (start_implementation okGateways 3 c1Project none c1Progress none)).activeFeatures ∧
    (dictGet (projAfter (start_implementation okGateways 3 c1Project none c1Progress none)).features "B").map
      PFeature.status = some "in_progress" ∧
    "A" ∉ (implAfter (start_implementation okGateways 3 c1Project none c1Progress none)).completedFeatures := by
  decide

/-- C1 (amended): only PlanningManager.start_feature enforces the
dependency gate: a feature with any dependency not yet in the completed
list is refused with an error (and the plan is unchanged, since the
error return precedes every mutation); ProjectManager.start_implementation
performs no dependency check and admits pending features in FIFO order
regardless of unmet dependencies. -/
theorem c1_amended : ∀ (now : Nat) (p : Plan) (n d : String) (f : Feature),
    dictGet p.features n = some f → d ∈ f.dependencies →
    d ∉ p.completedFeatures →
    ∃ e, start_feature now p n = Except.error e := by
  intro now p n d f hget hd hdc
  unfold start_feature
  rw [hget]
  dsimp only
  by_cases hA : n ∈ p.activeFeatures
  · rw [if_pos hA]
    exact ⟨_, rfl⟩
  · rw [if_neg hA]
    by_cases hC : n ∈ p.completedFeatures
    · rw [if_pos hC]
      exact ⟨_, rfl⟩
    · rw [if_neg hC]
      have hfind : (f.dependencies.find? (fun dep => dep ∉ p.completedFeatures)).isSome := by
        rw [List.find?_isSome]
        exact ⟨d, hd, by simpa using hdc⟩
      obtain ⟨d2, hd2⟩ := Option.isSome_iff_exists.mp hfind
      rw [hd2]
      exact ⟨_, rfl⟩

/-- Witness for c1_amended at a concrete plan where feature B depends on
the not-yet-completed feature A. -/
theorem c1_witness : ∃ e, start_feature 1 c1Plan "B" = Except.error e :=
  c1_amended 1 c1Plan "B" "A" featBdepA (by decide) (by decide) (by decide)

/-- Refutation of C2 at a concrete input: branch creation fails
persistently for the head candidate a, and the pass admits nothing at
all, even though candidate b has no dependencies and two slots are
free: the loop retries the failed head instead of moving to the next
candidate. -/
theorem c2_counterexample :
    (dictGet c2Project.features "b").map PFeature.dependencies = some [] ∧
    startedAfter (start_implementation failHeadGateways 3 c2Project none c2Progress none) = [] ∧
    (implAfter (start_implementation failHeadGateways 3 c2Project none c2Progress none)).pendingFeatures
      = ["a", "b"] := by
  decide

/-- C2 (amended): when branch creation raises for the head candidate,
the candidate is reinserted at index zero of the pending list (its
original position, candidates being popped from the head), the loop
continues, and its next iteration pops the same candidate again; with a
persistently failing head the whole pass is a no-op: nothing is
transitioned or lost and every candidate stays pending at its original
position for a later pass, but other eligible candidates are not
admitted in this pass. -/
theorem c2_amended : ∀ (gw : Gateways) (now : Nat) (proj : Project)
    (impl : Implementation) (prog : ProgressCounters) (mcf : Option Int)
    (n : String) (rest : List String) (f : PFeature) (e : String),
    proj.features ≠ [] →
    impl.pendingFeatures = n :: rest →
    dictGet proj.features n = some f →
    gw.createBranch proj.gitUrl (branchNameOf proj.name n) "main" = .error e →
    start_implementation gw now proj (some impl) prog mcf =
      Except.ok (proj, impl, prog, []) := by
  intro gw now proj impl prog mcf n rest f e hne hp hf hbr
  unfold start_implementation
  rw [if_neg (by simpa [List.isEmpty_iff] using hne)]
  dsimp only
  rw [admitLoop_head_branch_fails gw now _ ⟨proj, impl, prog, []⟩ n rest f e hp hf hbr]

/-- Witness for c2_amended: the concrete failing pass returns the state
unchanged with an empty started list. -/
theorem c2_witness :
    start_implementation failHeadGateways 3 c2Project (some c2Implementation)
      c2Progress (some 2) = Except.ok (c2Project, c2Implementation, c2Progress, []) :=
  c2_amended failHeadGateways 3 c2Project c2Implementation c2Progress (some 2)
    "a" ["b"] (pfeatNoDeps "a") "github boom" (by decide) rfl (by decide) rfl

/-- Refutation of C3 at a concrete input: complete_feature succeeds on
the pending (never started) feature A and leaves A in the pending list
while also appending it to the completed list, so A sits in two lists
after a PlanningManager operation on a plan created by create_plan. -/
theorem c3_counterexample :
    (complete_feature 1 c3Plan "A").toOption.isSome = true ∧
    "A" ∈ (applyOp 1 c3Plan (Op.completeF "A")).pendingFeatures ∧
    "A" ∈ (applyOp 1 c3Plan (Op.completeF "A")).completedFeatures := by
  decide

/-- C3 (amended): the exactly-one-list placement invariant, with list
membership matching the status field, is established by create_plan and
preserved by start_feature, update_step_status, update_feature_status
restricted to the three list-managed statuses, and complete_feature
restricted to features currently in the active list (ReachSafe);
complete_feature on a pending feature violates it. -/
theorem c3_amended : ∀ p : Plan, ReachSafe p →
    ∀ (n : String) (g : Feature), dictGet p.features n = some g →
    FeaturePlacement p n g :=
  fun _ h => (reachSafe_planInv h).2.2.2.2.2

/-- Witness for c3_amended at the one-feature plan reached by
create_plan alone. -/
theorem c3_witness : FeaturePlacement c3Plan "A" featA :=
  c3_amended c3Plan (ReachSafe.base "demo" "req" "## Feature: A" 0) "A" featA
    (by decide)

/-- Refutation of C4 at a concrete input: the transition completed to
in_progress is not in the legal transition set, yet update_feature_status
returns success and mutates the plan (the feature moves back to the
active list and its status field is overwritten). -/
theorem c4_counterexample :
    (dictGet c4Plan.features "A").map Feature.status = some "completed" ∧
    (update_feature_status 1 c4Plan "A" "in_progress").toOption.isSome = true ∧
    (applyOp 1 c4Plan (Op.updateF "A" "in_progress")).activeFeatures = ["A"] ∧
    (applyOp 1 c4Plan (Op.updateF "A" "in_progress")).completedFeatures = [] := by
  decide

/-- C4 (amended): update_feature_status performs no transition
validation at all: for any requested status string it succeeds whenever
the feature exists and writes that status into the feature record; the
only transition guard in the module is complete_feature rejecting a
feature already in the completed list with an error that leaves the
plan unchanged. -/
theorem c4_amended :
    (∀ (now : Nat) (p : Plan) (n s : String) (f : Feature),
      dictGet p.features n = some f →
      ∃ p2 g, update_feature_status now p n s = Except.ok p2 ∧
        dictGet p2.features n = some g ∧ g.status = s) ∧
    (∀ (now : Nat) (p : Plan) (n : String), n ∈ p.completedFeatures →
      ∃ e, complete_feature now p n = Except.error e) := by
  constructor
  · intro now p n s f hget
    unfold update_feature_status
    rw [hget]
    dsimp only
    by_cases hc1 : s = "completed" ∧ n ∉ p.completedFeatures
    · rw [if_pos hc1]
      refine ⟨_, { f with status := s, completedAt := some now }, rfl, ?_, rfl⟩
      split
      · exact dictGet_dictSet_self _ _ _
      · split
        · exact dictGet_dictSet_self _ _ _
        · exact dictGet_dictSet_self _ _ _
    · rw [if_neg hc1]
      by_cases hc2 : s = "in_progress" ∧ n ∉ p.activeFeatures
      · rw [if_pos hc2]
        refine ⟨_, { f with status := s, startedAt := some now }, rfl, ?_, rfl⟩
        split
        · exact dictGet_dictSet_self _ _ _
        · split
          · exact dictGet_dictSet_self _ _ _
          · exact dictGet_dictSet_self _ _ _
      · rw [if_neg hc2]
        by_cases hc3 : s = "not_started" ∧ n ∉ p.pendingFeatures
        · rw [if_pos hc3]
          refine ⟨_, { f with status := s }, rfl, ?_, rfl⟩
          split
          · exact dictGet_dictSet_self _ _ _
          · split
            · exact dictGet_dictSet_self _ _ _
            · exact dictGet_dictSet_self _ _ _
        · rw [if_neg hc3]
          refine ⟨_, { f with status := s }, rfl, ?_, rfl⟩
          split
          · exact dictGet_dictSet_self _ _ _
          · split
            · exact dictGet_dictSet_self _ _ _
            · exact dictGet_dictSet_self _ _ _
  · intro now p n hC
    unfold complete_feature
    cases hget : dictGet p.features n with
    | none => exact ⟨_, rfl⟩
    | some f =>
      dsimp only
      rw [if_pos hC]
      exact ⟨_, rfl⟩

/-- Witness for c4_amended: the unknown status string blocked is
accepted and written, and completing the already-completed feature A is
refused. -/
theorem c4_witness :
    (∃ p2 g, update_feature_status 1 c4Plan "A" "blocked" = Except.ok p2 ∧
      dictGet p2.features "A" = some g ∧ g.status = "blocked") ∧
    (∃ e, complete_feature 1 c4Plan "A" = Except.error e) :=
  ⟨c4_amended.1 1 c4Plan "A" "blocked" { featA with status := "completed" } (by decide),
    c4_amended.2 1 c4Plan "A" (by decide)⟩

/-- Refutation of C5 at a concrete input: complete_feature accepts the
feature A whose status is not_started (no in_progress validation), and
after the call the dependent feature B, whose only dependency A is now
completed, is still pending and nothing is active: no admission pass is
re-invoked by the completion handler. -/
theorem c5_counterexample :
    (dictGet c5Plan.features "A").map Feature.status = some "not_started" ∧
    (complete_feature 7 c5Plan "A").toOption.isSome = true ∧
    (applyOp 7 c5Plan (Op.completeF "A")).pendingFeatures = ["A", "B"] ∧
    (applyOp 7 c5Plan (Op.completeF "A")).activeFeatures = [] := by
  decide

/-- C5 (amended): complete_feature validates only that the feature
exists and is not already completed (not that it is in_progress); it
moves the name from the active list (when present) to the completed
list, marks the feature completed, and sets the plan status to
completed exactly when the completed count reaches the feature count;
it leaves the pending list untouched and re-invokes no admission pass,
so pending dependents of the completed feature are not started. -/
theorem c5_amended : ∀ (now : Nat) (p : Plan) (n : String) (f : Feature),
    dictGet p.features n = some f → n ∉ p.completedFeatures →
    ∃ p2, complete_feature now p n = Except.ok p2 ∧
      p2.completedFeatures = p.completedFeatures ++ [n] ∧
      p2.pendingFeatures = p.pendingFeatures ∧
      p2.activeFeatures = pyListRemoveIfMem p.activeFeatures n ∧
      (∃ g, dictGet p2.features n = some g ∧ g.status = "completed") ∧
      p2.status = (if p.completedFeatures.length + 1 = p.features.length
        then "completed" else p.status) := by
  intro now p n f hget hC
  have hkmem := dictGet_mem_keys hget
  unfold complete_feature
  rw [hget]
  dsimp only
  rw [if_neg hC]
  refine ⟨_, rfl, rfl, rfl, rfl, ⟨_, dictGet_dictSet_self _ _ _, rfl⟩, ?_⟩
  rw [length_dictSet_of_mem _ hkmem]
  simp [List.length_append]

/-- Witness for c5_amended at the concrete two-feature plan. -/
theorem c5_witness :
    ∃ p2, complete_feature 7 c5Plan "A" = Except.ok p2 ∧
      p2.completedFeatures = c5Plan.completedFeatures ++ ["A"] ∧
      p2.pendingFeatures = c5Plan.pendingFeatures ∧
      p2.activeFeatures = pyListRemoveIfMem c5Plan.activeFeatures "A" ∧
      (∃ g, dictGet p2.features "A" = some g ∧ g.status = "completed") ∧
      p2.status = (if c5Plan.completedFeatures.length + 1 = c5Plan.features.length
        then "completed" else c5Plan.status) :=
  c5_amended 7 c5Plan "A" featA (by decide) (by decide)

/-- Refutation of C6 at a concrete input: right after create_plan on a
plan text with no features, the completed count equals the feature
count (both zero) while the plan status is planning, so the claimed
biconditional fails in the direction from equal counts to completed
status. -/
theorem c6_counterexample :
    (create_plan "demo" "req" "" 0).status = "planning" ∧
    (create_plan "demo" "req" "" 0).status ≠ "completed" ∧
    (create_plan "demo" "req" "" 0).completedFeatures.length =
      (create_plan "demo" "req" "" 0).features.length := by
  decide

/-- C6 (amended): for any plan whose extracted features map is
nonempty, after create_plan and after any sequence of the lifecycle
operations, the plan status is completed exactly when the completed
count equals the feature count; for an empty features map the status
stays planning although the counts agree. -/
theorem c6_amended : ∀ (projectName requirements planText : String) (t0 : Nat)
    (ops : List (Nat × Op)), extractFeaturesFromPlan planText ≠ [] →
    ((runOps (create_plan projectName requirements planText t0) ops).status = "completed" ↔
      (runOps (create_plan projectName requirements planText t0) ops).completedFeatures.length =
        (runOps (create_plan projectName requirements planText t0) ops).features.length) :=
  fun projectName requirements planText t0 ops hne =>
    (runOps_completionInv ops
      (create_plan_completionInv projectName requirements planText t0 hne)).2.2.2

/-- Witness for c6_amended: a one-feature plan whose only feature is
completed by the single operation. -/
theorem c6_witness :
    extractFeaturesFromPlan "## Feature: A" ≠ [] ∧
    ((runOps (create_plan "demo" "req" "## Feature: A" 0) [(1, Op.completeF "A")]).status = "completed" ↔
      (runOps (create_plan "demo" "req" "## Feature: A" 0) [(1, Op.completeF "A")]).completedFeatures.length =
        (runOps (create_plan "demo" "req" "## Feature: A" 0) [(1, Op.completeF "A")]).features.length) :=
  ⟨by decide, c6_amended "demo" "req" "## Feature: A" 0 [(1, Op.completeF "A")] (by decide)⟩

/-- Refutation of C7 at a concrete input: passing
max_concurrent_features two to a project whose max_parallel_tasks is
one admits two features, so the active list exceeds the per-project
cap. -/
theorem c7_counterexample :
    c1Project.maxParallelTasks = 1 ∧
    (implAfter (start_implementation okGateways 3 c1Project none c1Progress (some 2))).activeFeatures.length = 2 := by
  decide

/-- C7 (amended): the bound that holds is relative to the per-call
effective limit, not the stored max_parallel_tasks: a successful
start_implementation call leaves the active list no longer than the
maximum of its previous length and the effective max_concurrent of that
call (the override when nonzero, else the project default), because the
pass runs at most max(0, max_concurrent minus current active) iterations
and each iteration admits at most one feature. -/
theorem c7_amended : ∀ (gw : Gateways) (now : Nat) (proj : Project)
    (implOpt : Option Implementation) (prog : ProgressCounters) (mcf : Option Int)
    (p2 : Project) (i2 : Implementation) (pr2 : ProgressCounters) (s2 : List String),
    start_implementation gw now proj implOpt prog mcf = Except.ok (p2, i2, pr2, s2) →
    i2.activeFeatures.length ≤
      max (match implOpt with
        | some im => im.activeFeatures.length
        | none => 0) (effectiveMaxConcurrent proj mcf).toNat := by
  intro gw now proj implOpt prog mcf p2 i2 pr2 s2 hok
  unfold start_implementation at hok
  split at hok
  · simp at hok
  · dsimp only at hok
    cases implOpt with
    | none =>
      dsimp only at hok
      split at hok
      · simp at hok
      · rename_i st heq
        simp only [Except.ok.injEq, Prod.mk.injEq] at hok
        obtain ⟨hp2, hi2, hpr2, hs2⟩ := hok
        subst hi2
        have hle := admitLoop_active_le gw now _ _ _ heq
        try dsimp only at hle
        simp only [List.length_nil] at hle
        omega
    | some im =>
      dsimp only at hok
      split at hok
      · simp at hok
      · rename_i st heq
        simp only [Except.ok.injEq, Prod.mk.injEq] at hok
        obtain ⟨hp2, hi2, hpr2, hs2⟩ := hok
        subst hi2
        have hle := admitLoop_active_le gw now _ _ _ heq
        try dsimp only at hle
        dsimp only
        omega

/-- Witness for c7_amended at the concrete over-cap run. -/
theorem c7_witness :
    (implAfter (start_implementation okGateways 3 c1Project none c1Progress (some 2))).activeFeatures.length ≤
      max 0 (effectiveMaxConcurrent c1Project (some 2)).toNat := by
  cases hE : start_implementation okGateways 3 c1Project none c1Progress (some 2) with
  | error e => exact Nat.zero_le _
  | ok q =>
    obtain ⟨p2, i2, pr2, s2⟩ := q
    exact c7_amended okGateways 3 c1Project none c1Progress (some 2) p2 i2 pr2 s2 hE

/-- Refutation of C8 at a concrete input: with three features of which
one is completed, the code returns 33.3 (the value rounded to one
decimal place) while the claimed exact formula gives 100/3. -/
theorem c8_counterexample :
    (c8Features.filter (fun pr => pr.2.status = "completed")).length = 1 ∧
    (c8Features.filter (fun pr => pr.2.status = "in_progress")).length = 0 ∧
    c8Features.length = 3 ∧
    estimate_project_completion c8Features = 333 / 10 ∧
    (333 / 10 : ℚ) ≠ ((1 : ℚ) + (0 : ℚ) * (1 / 2)) / 3 * 100 := by
  refine ⟨by decide, by decide, by decide, ?_, by norm_num⟩
  simp [estimate_project_completion, c8Features, pfeatNoDeps, pyRound1, pyRoundInt]
  norm_num [Int.fract]

/-- C8 (amended): feature progress and step progress are the exact
ratios scaled to one hundred with a zero result for a zero denominator,
as claimed; the weighted completion estimate is the claimed formula
rounded to one decimal place (round half to even, applied here to the
exact rational; the code rounds the corresponding double); the Scenario
D numbers hold exactly. -/
theorem c8_amended :
    (∀ plan : Plan, (get_plan_progress plan).featureProgress =
      if plan.features.length > 0 then
        (plan.completedFeatures.length : ℚ) / plan.features.length * 100 else 0) ∧
    (∀ plan : Plan, (get_plan_progress plan).stepProgress =
      if ((plan.features.map (fun pr => pr.2.steps.length)).sum) > 0 then
        (((((plan.features.map (fun pr =>
          (pr.2.steps.filter (fun st => st.status = "completed")).length)).sum : ℕ) : ℚ) /
          (((plan.features.map (fun pr => pr.2.steps.length)).sum : ℕ) : ℚ) * 100)) else 0) ∧
    (∀ features : List (String × PFeature), features ≠ [] →
      estimate_project_completion features =
        pyRound1 ((((features.filter (fun pr => pr.2.status = "completed")).length : ℚ) +
          ((features.filter (fun pr => pr.2.status = "in_progress")).length : ℚ) * (1 / 2)) /
          (features.length : ℚ) * 100)) ∧
    estimate_project_completion [] = 0 ∧
    (get_plan_progress scenarioDPlan).featureProgress = 50 ∧
    estimate_project_completion scenarioDFeatures = 125 / 2 := by
  refine ⟨fun plan => rfl, fun plan => rfl, ?_, rfl, ?_, ?_⟩
  · intro features hne
    unfold estimate_project_completion
    rw [if_neg (by simpa [List.isEmpty_iff] using hne)]
  · simp [get_plan_progress, scenarioDPlan]
    norm_num
  · simp [estimate_project_completion, scenarioDFeatures, pfeatNoDeps, pyRound1, pyRoundInt]
    norm_num [Int.fract]

/-- Witness for c8_amended at the three-feature list used above. -/
theorem c8_witness :
    estimate_project_completion c8Features =
      pyRound1 ((((c8Features.filter (fun pr => pr.2.status = "completed")).length : ℚ) +
        ((c8Features.filter (fun pr => pr.2.status = "in_progress")).length : ℚ) * (1 / 2)) /
        (c8Features.length : ℚ) * 100) :=
  c8_amended.2.2.1 c8Features (by decide)

/-- C9: wait_completion never returns a boolean at all: the call that
passes a timeout keyword to queue.Queue.join raises TypeError for every
timeout value, because the CPython method accepts no timeout parameter,
and the except clause catches only queue.Empty. -/
theorem c9_wait_completion_always_raises :
    ∀ timeout : Option ℚ, wait_completion timeout = Except.error PyExc.typeErr :=
  fun _ => rfl

/-- C10: starting from any plan built by create_plan, no sequence of
the four lifecycle operations ever makes a feature name occur twice
inside any single one of the pending, active or completed lists: every
append in the source is guarded by a membership test or a preceding
already-present error return. -/
theorem c10_lists_never_hold_duplicates :
    ∀ (projectName requirements planText : String) (t0 : Nat)
      (ops : List (Nat × Op)),
    NodupLists (runOps (create_plan projectName requirements planText t0) ops) :=
  fun projectName requirements planText t0 ops =>
    runOps_nodupLists ops (create_plan_nodupLists projectName requirements planText t0)

end Projector

